import Mathlib

set_option linter.unusedVariables false

/-
Verification of the entry scanning and field rewriting engine of mendeleyBibFix.c.

The C program works in place on NUL terminated character buffers with index
arithmetic and memmove deletions.  The shallow embedding below represents a
buffer as a List Char; a read past the logical end yields the NUL character,
matching a read of the C string terminator.  The in place scan of one entry,
with its index curBibInd, becomes explicit state passing on the pair of the
already scanned prefix (done) and the remaining suffix (rest); every memmove
deletion of the C code becomes the corresponding surgery on rest.  Runs on
which the C code would read or copy outside its buffer (undefined behavior)
are represented by a none result.
-/

/-- Null character, standing for the C string terminator and for reads past the end of a buffer. -/
def nul : Char := '\x00'

/-- Opening curly brace character. -/
def lbr : Char := '\x7b'

/-- Closing curly brace character. -/
def rbr : Char := '\x7d'

/-- Read of the character at an index, matching C indexing into a NUL terminated buffer:
positions at or past the logical end read as NUL. -/
def gc (s : List Char) (n : Nat) : Char := s.getD n nul

/-- Bounded linear search for the first index at or after i satisfying p, with explicit fuel.
This embeds the unbounded C scanning loops; the fuel always covers the whole buffer, so a
none result corresponds to a C loop that runs past the end of the buffer. -/
def searchIdx (p : Nat → Bool) : Nat → Nat → Option Nat
  | _, 0 => none
  | i, f + 1 => if p i then some i else searchIdx p (i + 1) f

/-- Embeds findEndOfLine (mendeleyBibFix.c lines 459 to 466): offset of the first newline at
or after startInd.  The C loop keeps scanning past the end of the string when no newline
remains, which is undefined; here that case is none. -/
def findEndOfLine (s : List Char) (startInd : Nat) : Option Nat :=
  searchIdx (fun i => gc s i == '\n') startInd (s.length - startInd)

/-- Terminator window test: the three characters closing brace, comma, newline starting at
offset j, the pattern searched by findEndOfField (mendeleyBibFix.c line 472). -/
def termWindow (s : List Char) (j : Nat) : Bool :=
  gc s j == rbr && gc s (j + 1) == ',' && gc s (j + 2) == '\n'

/-- Embeds findEndOfField (mendeleyBibFix.c lines 469 to 476): the loop advances curInd from
startInd until the window at curInd plus 1 matches, then returns curInd plus 3, that is the
index of the newline of the first matching window at or after startInd plus 1.  When no
window remains the C loop runs past the end of the string, here none. -/
def findEndOfField (s : List Char) (startInd : Nat) : Option Nat :=
  (searchIdx (fun j => termWindow s j) (startInd + 1) (s.length - startInd)).map (fun j => j + 2)

/-- Configuration booleans from the top of main (mendeleyBibFix.c lines 102 to 106). -/
structure Config where
  turn_issn_into_missing_year : Bool
  turn_every_entry_url_exception : Bool
  keep_url_only_if_no_doi : Bool
  keep_annote : Bool
  keep_abstract : Bool
deriving DecidableEq

/-- Default configuration as committed in the source (mendeleyBibFix.c lines 102 to 106). -/
def defaultCfg : Config :=
  { turn_issn_into_missing_year := false
    turn_every_entry_url_exception := true
    keep_url_only_if_no_doi := true
    keep_annote := false
    keep_abstract := false }

/-- URL exception entry types (mendeleyBibFix.c lines 122 to 125). -/
def URL_EXCEPTION_TYPES : List (List Char) :=
  [['m','i','s','c'], ['u','n','p','u','b','l','i','s','h','e','d']]

/-- Per entry scan state: bHasYear, bHasISSN, issnInd and has_doi
(mendeleyBibFix.c lines 154 to 158 and 289 to 291). -/
structure Flags where
  bHasYear : Bool
  bHasISSN : Bool
  issnInd : Nat
  has_doi : Bool
deriving DecidableEq

/-- Initial scan state of an entry (mendeleyBibFix.c lines 289 to 291). -/
def initFlags : Flags := { bHasYear := false, bHasISSN := false, issnInd := 0, has_doi := false }

/-- Field name pattern of the month branch (mendeleyBibFix.c line 299). -/
def monthPat : List Char := ['m','o','n','t','h',' ','=']

/-- Field name pattern of the title branch (mendeleyBibFix.c line 315). -/
def titlePat : List Char := ['t','i','t','l','e',' ','=']

/-- Field name pattern of the annote branch (mendeleyBibFix.c line 328). -/
def annotePat : List Char := ['a','n','n','o','t','e',' ','=']

/-- Field name pattern of the abstract branch (mendeleyBibFix.c line 328). -/
def abstractPat : List Char := ['a','b','s','t','r','a','c','t',' ','=']

/-- Field name pattern of the doi branch (mendeleyBibFix.c line 337). -/
def doiPat : List Char := ['d','o','i',' ','=']

/-- Field name pattern of the file branch (mendeleyBibFix.c line 341). -/
def filePat : List Char := ['f','i','l','e',' ','=']

/-- Field name pattern of the url branch (mendeleyBibFix.c line 350). -/
def urlPat : List Char := ['u','r','l',' ','=']

/-- Field name pattern of the year branch (mendeleyBibFix.c line 364). -/
def yearPat : List Char := ['y','e','a','r',' ','=']

/-- Field name pattern of the issn branch (mendeleyBibFix.c line 369). -/
def issnPat : List Char := ['i','s','s','n',' ','=']

/-- Escaped opening brace sequence, the 4 characters tested at mendeleyBibFix.c line 376. -/
def escOpenPat : List Char := [lbr, '\\', lbr, rbr]

/-- Escaped closing brace sequence, the 4 characters tested at mendeleyBibFix.c line 384. -/
def escClosePat : List Char := [lbr, '\\', rbr, rbr]

/-- One entry of the fix loop of main (mendeleyBibFix.c lines 293 to 395), embedded as
explicit state passing.  The buffer with scan index curBibInd becomes the pair of the
scanned prefix done and the remaining suffix rest, and each memmove deletion becomes the
corresponding list surgery on rest; field reads use offsets into the current tail, where
tail index k stands for buffer index curBibInd plus 1 plus k.  The fuel argument only
forces termination: every step shortens rest, and scanEntry below supplies enough fuel.
A none result marks a run on which the C code leaves the buffer: no newline ahead for
findEndOfLine, no terminator window ahead for findEndOfField, or a title line whose end
of line is nearer than offset 12, where the first memmove count underflows. -/
def scanFuel (cfg : Config) (bU : Bool) : Nat → Flags → List Char → List Char → Option (List Char × Flags)
  | 0, _, _, _ => none
  | f + 1, fl, done, rest =>
    match rest with
    | [] => some (done, fl)
    | c :: tail =>
      if c == '\n' then
        if List.isPrefixOf monthPat tail then
          if gc tail 8 == lbr && gc tail 12 == rbr then
            scanFuel cfg bU f fl (done ++ ['\n'])
              (tail.take 8 ++ [gc tail 9, gc tail 10, gc tail 11] ++ tail.drop 13)
          else
            scanFuel cfg bU f fl (done ++ ['\n']) tail
        else if List.isPrefixOf titlePat tail then
          match findEndOfLine tail 0 with
          | none => none
          | some d =>
            if 12 ≤ d then
              scanFuel cfg bU f fl (done ++ ['\n'])
                (tail.take 9 ++ (tail.drop 10).take (d - 12) ++ tail.drop (d - 1))
            else none
        else if (!cfg.keep_annote && List.isPrefixOf annotePat tail)
            || (!cfg.keep_abstract && List.isPrefixOf abstractPat tail) then
          match findEndOfField tail 0 with
          | none => none
          | some m => scanFuel cfg bU f fl done ('\n' :: tail.drop (m + 1))
        else if List.isPrefixOf doiPat tail then
          scanFuel cfg bU f { fl with has_doi := true } (done ++ ['\n']) tail
        else if List.isPrefixOf filePat tail then
          match findEndOfLine tail 0 with
          | none => none
          | some d => scanFuel cfg bU f fl done ('\n' :: tail.drop (d + 1))
        else if List.isPrefixOf urlPat tail then
          if !bU || (bU && cfg.keep_url_only_if_no_doi && fl.has_doi) then
            match findEndOfLine tail 0 with
            | none => none
            | some d => scanFuel cfg bU f fl done ('\n' :: tail.drop (d + 1))
          else
            scanFuel cfg bU f fl (done ++ ['\n']) tail
        else if List.isPrefixOf yearPat tail then
          scanFuel cfg bU f { fl with bHasYear := true } (done ++ ['\n']) tail
        else if List.isPrefixOf issnPat tail then
          scanFuel cfg bU f { fl with bHasISSN := true, issnInd := done.length + 1 } (done ++ ['\n']) tail
        else
          scanFuel cfg bU f fl (done ++ ['\n']) tail
      else if List.isPrefixOf escOpenPat (c :: tail) then
        scanFuel cfg bU f fl (done ++ [lbr]) (tail.drop 3)
      else if List.isPrefixOf escClosePat (c :: tail) then
        scanFuel cfg bU f fl (done ++ [rbr]) (tail.drop 3)
      else
        scanFuel cfg bU f fl (done ++ [c]) tail

/-- Scan of one entry, with fuel covering the whole remaining suffix. -/
def scanEntry (cfg : Config) (bU : Bool) (fl : Flags) (done rest : List Char) : Option (List Char × Flags) :=
  scanFuel cfg bU (rest.length + 1) fl done rest

/-- Number of characters consumed by the entry type loop (mendeleyBibFix.c lines 270 to 275):
characters are consumed until an opening brace, for at most fuel steps.  When the list runs
out first, the C loop reads the NUL terminator, never an opening brace, and so consumes all
remaining fuel. -/
def countUntilBrace : List Char → Nat → Nat
  | _, 0 => 0
  | [], f + 1 => f + 1
  | c :: r, f + 1 => if c == lbr then 0 else 1 + countUntilBrace r f

/-- Index at which the entry type loop stops: position of the opening brace after the at
sign, capped at BIB_TYPE_MAX = 25 (mendeleyBibFix.c lines 89 and 270 to 275). -/
def typeEnd (e : List Char) : Nat := 1 + countUntilBrace (e.drop 1) 24

/-- Embeds the per entry fixing block of main (mendeleyBibFix.c lines 264 to 404): entry
type extraction, URL exception decision (line 287), the character scan, and the final ISSN
renaming (lines 397 to 404). -/
def fixEntry (cfg : Config) (e : List Char) : Option (List Char) :=
  match scanEntry cfg
      (URL_EXCEPTION_TYPES.contains ((e.drop 1).take (typeEnd e - 1))
        || cfg.turn_every_entry_url_exception)
      initFlags (e.take (typeEnd e)) (e.drop (typeEnd e)) with
  | none => none
  | some (e2, fl) =>
    if cfg.turn_issn_into_missing_year && !fl.bHasYear && fl.bHasISSN then
      some (e2.take fl.issnInd ++ ['y','e','a','r'] ++ e2.drop (fl.issnInd + 4))
    else some e2

/-- Search for the at sign that anchors an entry (mendeleyBibFix.c lines 219 to 225);
none when the end of input comes first. -/
def atSearch (s : List Char) (pos : Nat) : Option Nat :=
  searchIdx (fun i => gc s i == '@') pos (s.length - pos)

/-- Terminator test of the entry end loop (mendeleyBibFix.c lines 235 to 238): a closing
brace preceded by a newline and followed by a newline or the end of input. -/
def isTermAt (s : List Char) (t : Nat) : Bool :=
  gc s t == rbr && gc s (t - 1) == '\n' && (gc s (t + 1) == '\n' || gc s (t + 1) == nul)

/-- Search for the entry terminator (mendeleyBibFix.c lines 233 to 244); none when the end
of input comes first, in which case the trailing partial entry is dropped. -/
def termSearch (s : List Char) (pos : Nat) : Option Nat :=
  searchIdx (fun t => isTermAt s t) pos (s.length - pos)

/-- Ranges of the entries found by the outer loop of main (mendeleyBibFix.c lines 216 to
262): each pair holds the anchor index of the at sign and the index of the terminating
brace.  The next search restarts at the terminator index, exactly as curInputInd does. -/
def extractFuel (s : List Char) : Nat → Nat → List (Nat × Nat)
  | 0, _ => []
  | f + 1, pos =>
    match atSearch s pos with
    | none => []
    | some a =>
      match termSearch s (a + 1) with
      | none => []
      | some t => (a, t) :: extractFuel s f t

/-- Entry ranges of a whole input buffer. -/
def extractRanges (s : List Char) : List (Nat × Nat) := extractFuel s (s.length + 1) 0

/-- Whole program core (mendeleyBibFix.c lines 211 to 410): extract each entry, fix it, and
concatenate the results in input order. -/
def driveFuel (cfg : Config) (s : List Char) : Nat → Nat → Option (List Char)
  | 0, _ => none
  | f + 1, pos =>
    match atSearch s pos with
    | none => some []
    | some a =>
      match termSearch s (a + 1) with
      | none => some []
      | some t =>
        match fixEntry cfg ((s.drop a).take (t + 2 - a)) with
        | none => none
        | some fixed =>
          match driveFuel cfg s f t with
          | none => none
          | some rest => some (fixed ++ rest)

/-- Pure core of the program on a whole input buffer. -/
def mendeleyBibFix (cfg : Config) (s : List Char) : Option (List Char) :=
  driveFuel cfg s (s.length + 1) 0

/-- Rendering of a list of body lines, each followed by a newline, before a tail. -/
def bodyR : List (List Char) → List Char → List Char
  | [], tl => tl
  | L :: ls, tl => L ++ '\n' :: bodyR ls tl

/-- Rendering of a bib record in the exporter layout: at sign, entry type, opening brace,
citation key, comma, newline, the field lines each on its own line, and the closing brace
line. -/
def recordR (ty key : List Char) (lines : List (List Char)) : List Char :=
  '@' :: (ty ++ (lbr :: (key ++ (',' :: '\n' :: bodyR lines (rbr :: ['\n'])))))

/-- Title line with a doubled brace pair around the value. -/
def titleDD (v : List Char) : List Char := titlePat ++ ' ' :: lbr :: lbr :: v ++ [rbr, rbr, ',']

/-- Title line with a single brace pair around the value. -/
def titleSingle (v : List Char) : List Char := titlePat ++ ' ' :: lbr :: v ++ [rbr, ',']

/-- Month line with a single brace pair around a three character abbreviation. -/
def monthBr (a b c : Char) : List Char := monthPat ++ [' ', lbr, a, b, c, rbr, ',']

/-- Month line with a bare three character abbreviation. -/
def monthFixedL (a b c : Char) : List Char := monthPat ++ [' ', a, b, c, ',']

/-- Month line with a brace pair around a four character value. -/
def monthBr4 (a b c d : Char) : List Char := monthPat ++ [' ', lbr, a, b, c, d, rbr, ',']

/-- Month line with a doubled brace pair around a three character abbreviation. -/
def monthDD (a b c : Char) : List Char := monthPat ++ [' ', lbr, lbr, a, b, c, rbr, rbr, ',']

/-- Url field line. -/
def urlLine (v : List Char) : List Char := urlPat ++ ' ' :: lbr :: v ++ [rbr, ',']

/-- Doi field line. -/
def doiLine (v : List Char) : List Char := doiPat ++ ' ' :: lbr :: v ++ [rbr, ',']

/-- Generic single line field in the exporter layout. -/
def plainField (name v : List Char) : List Char := name ++ ' ' :: '=' :: ' ' :: lbr :: v ++ [rbr, ',']

/-- First line of a multi line annote field: the field name and the opening brace followed
by the first piece of content. -/
def annoteFirst (v : List Char) : List Char := annotePat ++ ' ' :: lbr :: v

/-- Benign character: not a newline, a brace, or a backslash, so a value made of such
characters can neither hide a line boundary, a brace pattern, nor a terminator window. -/
def benignChar (c : Char) : Bool := c != '\n' && c != lbr && c != rbr && c != '\\'

/-- Benign list of characters. -/
def benignL (v : List Char) : Bool := v.all benignChar

/-- Chunk check: no character of the chunk is a newline and no position of the chunk starts
one of the two escaped brace patterns, so the entry scan walks over the chunk unchanged. -/
def chunkOK : List Char → Bool
  | [] => true
  | c :: s => c != '\n' && !(List.isPrefixOf escOpenPat (c :: s)) && !(List.isPrefixOf escClosePat (c :: s)) && chunkOK s

/-- Line test: the last two characters are a closing brace and a comma, so the line followed
by its newline ends in the terminator window of findEndOfField. -/
def endsTerm (L : List Char) : Bool :=
  decide (2 ≤ L.length) && gc L (L.length - 2) == rbr && gc L (L.length - 1) == ','

/-- Line matching none of the field prefixes of the scan dispatch. -/
def noCat (L : List Char) : Bool :=
  !(List.isPrefixOf monthPat L) && !(List.isPrefixOf titlePat L) && !(List.isPrefixOf annotePat L)
  && !(List.isPrefixOf abstractPat L) && !(List.isPrefixOf doiPat L) && !(List.isPrefixOf filePat L)
  && !(List.isPrefixOf urlPat L) && !(List.isPrefixOf yearPat L) && !(List.isPrefixOf issnPat L)

/-- Year field line. -/
def yearLine (v : List Char) : List Char := yearPat ++ ' ' :: lbr :: v ++ [rbr, ',']

/-- Issn field line. -/
def issnLine (v : List Char) : List Char := issnPat ++ ' ' :: lbr :: v ++ [rbr, ',']

/-- Inert line: a line over which the entry scan walks without editing the text.  Either it
matches no field prefix and is chunk safe, or it is a well formed doi, year or issn line,
which only sets a flag. -/
def InertLine (L : List Char) : Prop :=
  (noCat L = true ∧ chunkOK L = true)
  ∨ (∃ v, L = doiLine v ∧ benignL v = true)
  ∨ (∃ v, L = yearLine v ∧ benignL v = true)
  ∨ (∃ v, L = issnLine v ∧ benignL v = true)

/-- Rendering of the scanned prefix contributed by a list of lines: each line preceded by
the newline that ends the previous line. -/
def prefR : List (List Char) → List Char
  | [] => []
  | L :: ls => '\n' :: L ++ prefR ls


/-- Total rendered length of a list of lines, each with its newline. -/
def bodyLen : List (List Char) → Nat
  | [] => 0
  | L :: ls => L.length + 1 + bodyLen ls

/-- Scanned prefix of a record at the moment the line scan starts: the at sign, entry type,
opening brace, key and comma. -/
def headerD (ty key : List Char) : List Char := '@' :: (ty ++ (lbr :: (key ++ [','])))

/-- Closing line of a multi line field: arbitrary content followed by the closing brace and
comma. -/
def termLine (z : List Char) : List Char := z ++ [rbr, ',']

/-- Configuration equal to the default except that the every entry url exception override
is disabled. -/
def cfgNoX : Config := { defaultCfg with turn_every_entry_url_exception := false }

/-- Entry type tag article. -/
def artT : List Char := ['a','r','t','i','c','l','e']

/-- Entry type tag misc. -/
def miscT : List Char := ['m','i','s','c']

/-- Concrete input buffer with two complete entries and one trailing partial entry. -/
def exBuf : List Char :=
  ['@','a',lbr,'k',',','\n','x','\n',rbr,'\n',
   '@','b',lbr,'m',',','\n','y','\n',rbr,'\n',
   '@','p',lbr,'q',',','\n','z','z']

/- Part 1: search characterizations. -/

theorem searchIdx_some_iff (p : Nat → Bool) (f : Nat) : ∀ (i j : Nat),
    (searchIdx p i f = some j ↔
      i ≤ j ∧ j < i + f ∧ p j = true ∧ ∀ m, i ≤ m → m < j → p m = false) := by
  induction f with
  | zero => intro i j; simp [searchIdx]; omega
  | succ f ih =>
    intro i j
    by_cases hp : p i = true
    · simp only [searchIdx, hp, if_true]
      constructor
      · rintro h; cases h
        exact ⟨le_refl i, by omega, hp, fun m h1 h2 => by omega⟩
      · rintro ⟨h1, h2, h3, h4⟩
        have : i = j := by
          by_contra hne
          have : p i = false := h4 i (le_refl i) (by omega)
          rw [hp] at this; cases this
        rw [this]
    · simp only [searchIdx, hp, Bool.false_eq_true, if_false]
      rw [ih (i + 1) j]
      constructor
      · rintro ⟨h1, h2, h3, h4⟩
        refine ⟨by omega, by omega, h3, fun m hm1 hm2 => ?_⟩
        rcases Nat.eq_or_lt_of_le hm1 with rfl | hlt
        · exact Bool.eq_false_iff.mpr hp
        · exact h4 m hlt hm2
      · rintro ⟨h1, h2, h3, h4⟩
        have hij : i ≠ j := by
          rintro rfl; rw [h3] at hp; exact hp rfl
        exact ⟨by omega, by omega, h3, fun m hm1 hm2 => h4 m (by omega) hm2⟩

theorem searchIdx_none_iff (p : Nat → Bool) (f : Nat) : ∀ (i : Nat),
    (searchIdx p i f = none ↔ ∀ m, i ≤ m → m < i + f → p m = false) := by
  induction f with
  | zero => intro i; simp [searchIdx]; omega
  | succ f ih =>
    intro i
    by_cases hp : p i = true
    · simp only [searchIdx, hp, if_true]
      constructor
      · intro h; cases h
      · intro h
        have := h i (le_refl i) (by omega)
        rw [hp] at this; cases this
    · simp only [searchIdx, hp, Bool.false_eq_true, if_false]
      rw [ih (i + 1)]
      constructor
      · intro h m hm1 hm2
        rcases Nat.eq_or_lt_of_le hm1 with rfl | hlt
        · exact Bool.eq_false_iff.mpr hp
        · exact h m hlt (by omega)
      · intro h m hm1 hm2
        exact h m (by omega) (by omega)

/- Part 2: reads through the NUL convention. -/

theorem gc_cons_zero (c : Char) (s : List Char) : gc (c :: s) 0 = c := rfl

theorem gc_cons_succ (c : Char) (s : List Char) (n : Nat) : gc (c :: s) (n + 1) = gc s n := rfl

theorem gc_of_ge (s : List Char) (n : Nat) (h : s.length ≤ n) : gc s n = nul :=
  List.getD_eq_default s nul h

theorem lt_length_of_gc (s : List Char) (n : Nat) (h : gc s n ≠ nul) : n < s.length := by
  by_contra hc
  exact h (gc_of_ge s n (by omega))

theorem gc_append_lt (l r : List Char) (n : Nat) (h : n < l.length) :
    gc (l ++ r) n = gc l n := List.getD_append l r nul n h

theorem gc_append_ge (l r : List Char) (n : Nat) (h : l.length ≤ n) :
    gc (l ++ r) n = gc r (n - l.length) := List.getD_append_right l r nul n h

theorem gc_mem (s : List Char) (n : Nat) (h : n < s.length) : gc s n ∈ s := by
  rw [gc, List.getD_eq_getElem s nul h]
  exact List.getElem_mem h

theorem nul_ne_nl : nul ≠ '\n' := by decide

theorem gc_line_self (L r : List Char) : gc (L ++ '\n' :: r) L.length = '\n' := by
  rw [gc_append_ge L ('\n' :: r) L.length (le_refl _), Nat.sub_self, gc_cons_zero]

/-- Benign membership unpacking. -/
theorem benign_of_mem (v : List Char) (hv : benignL v = true) (c : Char) (hm : c ∈ v) :
    c ≠ '\n' ∧ c ≠ lbr ∧ c ≠ rbr ∧ c ≠ '\\' := by
  have := List.all_eq_true.mp hv c hm
  simp only [benignChar, Bool.and_eq_true, bne_iff_ne] at this
  exact ⟨this.1.1.1, this.1.1.2, this.1.2, this.2⟩

theorem noNl_of_benign (v : List Char) (hv : benignL v = true) : '\n' ∉ v := by
  intro hm
  exact (benign_of_mem v hv '\n' hm).1 rfl

/- Part 3: end of line and field terminator searches. -/

theorem findEndOfLine_some_iff (s : List Char) (i d : Nat) :
    findEndOfLine s i = some d ↔
      i ≤ d ∧ gc s d = '\n' ∧ ∀ m, i ≤ m → m < d → gc s m ≠ '\n' := by
  rw [findEndOfLine, searchIdx_some_iff]
  constructor
  · rintro ⟨h1, h2, h3, h4⟩
    refine ⟨h1, by simpa [beq_iff_eq] using h3, fun m hm1 hm2 => ?_⟩
    have := h4 m hm1 hm2
    simpa [beq_iff_eq] using this
  · rintro ⟨h1, h2, h3⟩
    have hd : d < s.length := lt_length_of_gc s d (by rw [h2]; decide)
    refine ⟨h1, by omega, by simpa [beq_iff_eq] using h2, fun m hm1 hm2 => ?_⟩
    simpa [beq_iff_eq] using h3 m hm1 hm2

theorem findEndOfLine_lt (s : List Char) (i d : Nat) (h : findEndOfLine s i = some d) :
    d < s.length := by
  obtain ⟨_, h2, _⟩ := (findEndOfLine_some_iff s i d).mp h
  exact lt_length_of_gc s d (by rw [h2]; decide)

theorem findEndOfLine_line (L r : List Char) (h : '\n' ∉ L) :
    findEndOfLine (L ++ '\n' :: r) 0 = some L.length := by
  rw [findEndOfLine_some_iff]
  refine ⟨Nat.zero_le _, gc_line_self L r, fun m hm1 hm2 => ?_⟩
  rw [gc_append_lt L _ m hm2]
  intro hEq
  exact h (hEq ▸ gc_mem L m hm2)

theorem drop_line (L r : List Char) : (L ++ '\n' :: r).drop (L.length + 1) = r := by
  have h := @List.drop_append _ L ('\n' :: r) 1
  simp only [List.drop_succ_cons, List.drop_zero] at h
  exact h

theorem termWindow_iff (s : List Char) (j : Nat) :
    termWindow s j = true ↔ gc s j = rbr ∧ gc s (j + 1) = ',' ∧ gc s (j + 2) = '\n' := by
  simp [termWindow, Bool.and_eq_true, beq_iff_eq, and_assoc]

theorem termWindow_lt (s : List Char) (j : Nat) (h : termWindow s j = true) :
    j + 2 < s.length := by
  obtain ⟨_, _, h3⟩ := (termWindow_iff s j).mp h
  exact lt_length_of_gc s (j + 2) (by rw [h3]; decide)

theorem endsTerm_iff (L : List Char) :
    endsTerm L = true ↔ 2 ≤ L.length ∧ gc L (L.length - 2) = rbr ∧ gc L (L.length - 1) = ',' := by
  simp [endsTerm, Bool.and_eq_true, beq_iff_eq, and_assoc]

theorem termWindow_line (L : List Char) (hL : '\n' ∉ L) (R : List Char) (j : Nat) :
    termWindow (L ++ '\n' :: R) j = true ↔
      (j + 2 = L.length ∧ endsTerm L = true)
      ∨ (L.length + 1 ≤ j ∧ termWindow R (j - (L.length + 1)) = true) := by
  have hnl : ∀ m, m < L.length → gc L m ≠ '\n' := fun m hm hEq => hL (hEq ▸ gc_mem L m hm)
  constructor
  · intro h
    obtain ⟨ha, hb, hc⟩ := (termWindow_iff _ j).mp h
    by_cases hj : L.length + 1 ≤ j
    · right
      refine ⟨hj, (termWindow_iff _ _).mpr ⟨?_, ?_, ?_⟩⟩
      · rw [gc_append_ge _ _ j (by omega),
          show j - L.length = (j - (L.length + 1)) + 1 by omega, gc_cons_succ] at ha
        exact ha
      · rw [gc_append_ge _ _ (j + 1) (by omega),
          show j + 1 - L.length = (j - (L.length + 1) + 1) + 1 by omega, gc_cons_succ] at hb
        exact hb
      · rw [gc_append_ge _ _ (j + 2) (by omega),
          show j + 2 - L.length = (j - (L.length + 1) + 2) + 1 by omega, gc_cons_succ] at hc
        exact hc
    · have hcases : j + 2 < L.length ∨ j + 2 = L.length ∨ j + 1 = L.length ∨ j = L.length := by
        omega
      rcases hcases with hx | hx | hx | hx
      · rw [gc_append_lt _ _ (j + 2) hx] at hc
        exact absurd hc (hnl (j + 2) hx)
      · left
        refine ⟨hx, (endsTerm_iff L).mpr ⟨by omega, ?_, ?_⟩⟩
        · rw [gc_append_lt _ _ j (by omega)] at ha
          rw [show L.length - 2 = j by omega]
          exact ha
        · rw [gc_append_lt _ _ (j + 1) (by omega)] at hb
          rw [show L.length - 1 = j + 1 by omega]
          exact hb
      · rw [show j + 1 = L.length from hx, gc_line_self] at hb
        exact absurd hb (by decide)
      · rw [show j = L.length from hx, gc_line_self] at ha
        exact absurd ha (by decide)
  · rintro (⟨hj, hterm⟩ | ⟨hj, hterm⟩)
    · obtain ⟨h2, ha, hb⟩ := (endsTerm_iff L).mp hterm
      refine (termWindow_iff _ _).mpr ⟨?_, ?_, ?_⟩
      · rw [gc_append_lt _ _ j (by omega), show j = L.length - 2 by omega]
        exact ha
      · rw [gc_append_lt _ _ (j + 1) (by omega), show j + 1 = L.length - 1 by omega]
        exact hb
      · rw [show j + 2 = L.length from hj]
        exact gc_line_self L R
    · obtain ⟨ha, hb, hc⟩ := (termWindow_iff _ _).mp hterm
      refine (termWindow_iff _ _).mpr ⟨?_, ?_, ?_⟩
      · rw [gc_append_ge _ _ j (by omega),
          show j - L.length = (j - (L.length + 1)) + 1 by omega, gc_cons_succ]
        exact ha
      · rw [gc_append_ge _ _ (j + 1) (by omega),
          show j + 1 - L.length = (j - (L.length + 1) + 1) + 1 by omega, gc_cons_succ]
        exact hb
      · rw [gc_append_ge _ _ (j + 2) (by omega),
          show j + 2 - L.length = (j - (L.length + 1) + 2) + 1 by omega, gc_cons_succ]
        exact hc

theorem findEndOfField_some_iff (s : List Char) (st m : Nat) :
    findEndOfField s st = some m ↔
      ∃ j, m = j + 2 ∧ st + 1 ≤ j ∧ termWindow s j = true ∧
        ∀ k, st + 1 ≤ k → k < j → termWindow s k = false := by
  rw [findEndOfField]
  constructor
  · intro h
    cases hs : searchIdx (fun j => termWindow s j) (st + 1) (s.length - st) with
    | none => rw [hs] at h; cases h
    | some j =>
      rw [hs] at h
      simp only [Option.map_some', Option.some.injEq] at h
      obtain ⟨h1, h2, h3, h4⟩ := (searchIdx_some_iff _ _ _ _).mp hs
      exact ⟨j, by omega, h1, h3, fun k hk1 hk2 => h4 k hk1 hk2⟩
  · rintro ⟨j, rfl, h1, h2, h3⟩
    have hb : j + 2 < s.length := termWindow_lt s j h2
    have hsi : searchIdx (fun j => termWindow s j) (st + 1) (s.length - st) = some j :=
      (searchIdx_some_iff _ _ _ _).mpr ⟨h1, by omega, h2, h3⟩
    rw [hsi]
    rfl

theorem findEndOfField_none_iff (s : List Char) (st : Nat) :
    findEndOfField s st = none ↔ ∀ j, st + 1 ≤ j → termWindow s j = false := by
  rw [findEndOfField]
  constructor
  · intro h j hj
    cases hs : searchIdx (fun j => termWindow s j) (st + 1) (s.length - st) with
    | some j' => rw [hs] at h; cases h
    | none =>
      have hall := (searchIdx_none_iff _ _ _).mp hs
      by_cases hlt : j < (st + 1) + (s.length - st)
      · exact hall j hj hlt
      · rcases Bool.eq_false_or_eq_true (termWindow s j) with ht | hf
        · have := termWindow_lt s j ht
          omega
        · exact hf
  · intro h
    rw [(searchIdx_none_iff _ _ _).mpr (fun m hm _ => h m hm)]
    rfl

/- Part 4: multi line bodies. -/

theorem bodyR_append (xs ys : List (List Char)) (tl : List Char) :
    bodyR (xs ++ ys) tl = bodyR xs (bodyR ys tl) := by
  induction xs with
  | nil => rfl
  | cons L ls ih => simp [bodyR, ih]

theorem prefR_bodyR (ls : List (List Char)) (tl : List Char) :
    '\n' :: bodyR ls tl = prefR ls ++ '\n' :: tl := by
  induction ls generalizing tl with
  | nil => rfl
  | cons L ls ih => simp [bodyR, prefR, ih]

theorem drop_bodyR (xs : List (List Char)) (R : List Char) :
    (bodyR xs R).drop (bodyLen xs) = R := by
  induction xs with
  | nil => rfl
  | cons L ls ih =>
    have h1 : bodyLen (L :: ls) = L.length + (1 + bodyLen ls) := by simp [bodyLen]; omega
    rw [bodyR, h1, @List.drop_append _ L ('\n' :: bodyR ls R) (1 + bodyLen ls)]
    rw [show 1 + bodyLen ls = bodyLen ls + 1 by omega, List.drop_succ_cons]
    exact ih

theorem window_bodyR (ls : List (List Char)) (R : List Char)
    (h : ∀ M ∈ ls, '\n' ∉ M ∧ endsTerm M = false) : ∀ (j : Nat),
    (termWindow (bodyR ls R) j = true ↔ bodyLen ls ≤ j ∧ termWindow R (j - bodyLen ls) = true) := by
  induction ls with
  | nil => intro j; simp [bodyR, bodyLen]
  | cons L ls ih =>
    intro j
    have hL := h L (by simp)
    rw [bodyR, termWindow_line L hL.1, ih (fun M hm => h M (by simp [hm]))]
    rw [hL.2]
    constructor
    · rintro (⟨_, ht⟩ | ⟨h1, h2, h3⟩)
      · cases ht
      · refine ⟨by simp [bodyLen]; omega, ?_⟩
        rw [show j - bodyLen (L :: ls) = j - (L.length + 1) - bodyLen ls by simp [bodyLen]; omega]
        exact h3
    · rintro ⟨h1, h2⟩
      have h1b : L.length + 1 + bodyLen ls ≤ j := by simpa [bodyLen] using h1
      right
      refine ⟨by omega, by omega, ?_⟩
      rw [show j - (L.length + 1) - bodyLen ls = j - bodyLen (L :: ls) by simp [bodyLen]; omega]
      exact h2

theorem findEndOfField_body (A : List Char) (mids : List (List Char)) (Z : List Char) (R : List Char)
    (hA : '\n' ∉ A) (hAt : endsTerm A = false)
    (hm : ∀ M ∈ mids, '\n' ∉ M ∧ endsTerm M = false)
    (hZ : '\n' ∉ Z) (hZt : endsTerm Z = true) :
    findEndOfField (bodyR (A :: mids ++ [Z]) R) 0 = some (bodyLen (A :: mids) + Z.length) := by
  have hZ2 : 2 ≤ Z.length := ((endsTerm_iff Z).mp hZt).1
  have hlines : ∀ M ∈ A :: mids, '\n' ∉ M ∧ endsTerm M = false := by
    intro M hM
    rcases List.mem_cons.mp hM with rfl | hM2
    · exact ⟨hA, hAt⟩
    · exact hm M hM2
  have hbody : bodyR (A :: mids ++ [Z]) R = bodyR (A :: mids) (Z ++ '\n' :: R) := by
    rw [show A :: mids ++ [Z] = (A :: mids) ++ [Z] by simp, bodyR_append]
    rfl
  have hblen : 1 ≤ bodyLen (A :: mids) := by simp [bodyLen]; omega
  rw [hbody, findEndOfField_some_iff]
  refine ⟨bodyLen (A :: mids) + Z.length - 2, by omega, by omega, ?_, ?_⟩
  · rw [window_bodyR (A :: mids) _ hlines]
    refine ⟨by omega, ?_⟩
    rw [termWindow_line Z hZ]
    left
    exact ⟨by omega, hZt⟩
  · intro k hk1 hk2
    rcases Bool.eq_false_or_eq_true (termWindow (bodyR (A :: mids) (Z ++ '\n' :: R)) k) with ht | hf
    · exfalso
      rw [window_bodyR (A :: mids) _ hlines] at ht
      obtain ⟨hk3, hk4⟩ := ht
      rw [termWindow_line Z hZ] at hk4
      rcases hk4 with ⟨he, _⟩ | ⟨hge, _⟩ <;> omega
    · exact hf

theorem findEndOfField_facts (s : List Char) (st m : Nat) (h : findEndOfField s st = some m) :
    st + 3 ≤ m ∧ m < s.length := by
  obtain ⟨j, rfl, h1, h2, _⟩ := (findEndOfField_some_iff s st m).mp h
  have := termWindow_lt s j h2
  omega


theorem scanFuel_nil (cfg : Config) (bU : Bool) (f : Nat) (fl : Flags) (done : List Char) :
    scanFuel cfg bU (f + 1) fl done [] = some (done, fl) := rfl

theorem scanFuel_cons (cfg : Config) (bU : Bool) (f : Nat) (fl : Flags) (done : List Char)
    (c : Char) (tail : List Char) :
    scanFuel cfg bU (f + 1) fl done (c :: tail) =
      (if c == '\n' then
        if List.isPrefixOf monthPat tail then
          if gc tail 8 == lbr && gc tail 12 == rbr then
            scanFuel cfg bU f fl (done ++ ['\n'])
              (tail.take 8 ++ [gc tail 9, gc tail 10, gc tail 11] ++ tail.drop 13)
          else
            scanFuel cfg bU f fl (done ++ ['\n']) tail
        else if List.isPrefixOf titlePat tail then
          match findEndOfLine tail 0 with
          | none => none
          | some d =>
            if 12 ≤ d then
              scanFuel cfg bU f fl (done ++ ['\n'])
                (tail.take 9 ++ (tail.drop 10).take (d - 12) ++ tail.drop (d - 1))
            else none
        else if (!cfg.keep_annote && List.isPrefixOf annotePat tail)
            || (!cfg.keep_abstract && List.isPrefixOf abstractPat tail) then
          match findEndOfField tail 0 with
          | none => none
          | some m => scanFuel cfg bU f fl done ('\n' :: tail.drop (m + 1))
        else if List.isPrefixOf doiPat tail then
          scanFuel cfg bU f { fl with has_doi := true } (done ++ ['\n']) tail
        else if List.isPrefixOf filePat tail then
          match findEndOfLine tail 0 with
          | none => none
          | some d => scanFuel cfg bU f fl done ('\n' :: tail.drop (d + 1))
        else if List.isPrefixOf urlPat tail then
          if !bU || (bU && cfg.keep_url_only_if_no_doi && fl.has_doi) then
            match findEndOfLine tail 0 with
            | none => none
            | some d => scanFuel cfg bU f fl done ('\n' :: tail.drop (d + 1))
          else
            scanFuel cfg bU f fl (done ++ ['\n']) tail
        else if List.isPrefixOf yearPat tail then
          scanFuel cfg bU f { fl with bHasYear := true } (done ++ ['\n']) tail
        else if List.isPrefixOf issnPat tail then
          scanFuel cfg bU f { fl with bHasISSN := true, issnInd := done.length + 1 } (done ++ ['\n']) tail
        else
          scanFuel cfg bU f fl (done ++ ['\n']) tail
      else if List.isPrefixOf escOpenPat (c :: tail) then
        scanFuel cfg bU f fl (done ++ [lbr]) (tail.drop 3)
      else if List.isPrefixOf escClosePat (c :: tail) then
        scanFuel cfg bU f fl (done ++ [rbr]) (tail.drop 3)
      else
        scanFuel cfg bU f fl (done ++ [c]) tail) := rfl

/- Part 5: fuel irrelevance of the entry scan. -/

theorem scanFuel_congr (cfg : Config) (bU : Bool) : ∀ (f g : Nat) (fl : Flags)
    (done rest : List Char), rest.length < f → rest.length < g →
    scanFuel cfg bU f fl done rest = scanFuel cfg bU g fl done rest := by
  intro f
  induction f with
  | zero => intro g fl done rest h1 h2; omega
  | succ f ih =>
    intro g fl done rest h1 h2
    obtain ⟨g', rfl⟩ : ∃ g', g = g' + 1 := ⟨g - 1, by omega⟩
    cases rest with
    | nil => rfl
    | cons c tail =>
      simp only [List.length_cons] at h1 h2
      have htail1 : tail.length < f := by omega
      have htail2 : tail.length < g' := by omega
      rw [scanFuel_cons cfg bU f fl done c tail, scanFuel_cons cfg bU g' fl done c tail]
      cases hnl : c == '\n' with
      | true =>
        cases hmn : List.isPrefixOf monthPat tail with
        | true =>
          cases hg : gc tail 8 == lbr && gc tail 12 == rbr with
          | true =>
            have h12 : 12 < tail.length := by
              have hr : gc tail 12 = rbr := by
                have := (Bool.and_eq_true _ _).mp hg
                simpa [beq_iff_eq] using this.2
              exact lt_length_of_gc tail 12 (by rw [hr]; decide)
            have hlen : (tail.take 8 ++ [gc tail 9, gc tail 10, gc tail 11] ++ tail.drop 13).length
                = tail.length - 2 := by
              simp [List.length_take, List.length_drop]
              omega
            exact ih g' fl (done ++ ['\n']) _ (by rw [hlen]; omega) (by rw [hlen]; omega)
          | false => exact ih g' fl (done ++ ['\n']) tail htail1 htail2
        | false =>
          cases hti : List.isPrefixOf titlePat tail with
          | true =>
            cases hEol : findEndOfLine tail 0 with
            | none => rfl
            | some d =>
              show (if 12 ≤ d then
                  scanFuel cfg bU f fl (done ++ ['\n'])
                    (tail.take 9 ++ (tail.drop 10).take (d - 12) ++ tail.drop (d - 1))
                else none)
                = (if 12 ≤ d then
                  scanFuel cfg bU g' fl (done ++ ['\n'])
                    (tail.take 9 ++ (tail.drop 10).take (d - 12) ++ tail.drop (d - 1))
                else none)
              have hd : d < tail.length := findEndOfLine_lt tail 0 d hEol
              by_cases h12 : 12 ≤ d
              · rw [if_pos h12, if_pos h12]
                have hlen : (tail.take 9 ++ (tail.drop 10).take (d - 12) ++ tail.drop (d - 1)).length
                    = tail.length - 2 := by
                  simp [List.length_take, List.length_drop]
                  omega
                exact ih g' fl (done ++ ['\n']) _ (by rw [hlen]; omega) (by rw [hlen]; omega)
              · rw [if_neg h12, if_neg h12]
          | false =>
            cases hab : (!cfg.keep_annote && List.isPrefixOf annotePat tail)
                || (!cfg.keep_abstract && List.isPrefixOf abstractPat tail) with
            | true =>
              cases hEof : findEndOfField tail 0 with
              | none => rfl
              | some m =>
                obtain ⟨hm3, hmlen⟩ := findEndOfField_facts tail 0 m hEof
                have hlen : ('\n' :: tail.drop (m + 1)).length = tail.length - m := by
                  simp [List.length_drop]
                  omega
                exact ih g' fl done _ (by rw [hlen]; omega) (by rw [hlen]; omega)
            | false =>
              cases hdoi : List.isPrefixOf doiPat tail with
              | true => exact ih g' _ (done ++ ['\n']) tail htail1 htail2
              | false =>
                cases hfile : List.isPrefixOf filePat tail with
                | true =>
                  cases hEol : findEndOfLine tail 0 with
                  | none => rfl
                  | some d =>
                    have hd : d < tail.length := findEndOfLine_lt tail 0 d hEol
                    have hlen : ('\n' :: tail.drop (d + 1)).length = tail.length - d := by
                      simp [List.length_drop]
                      omega
                    exact ih g' fl done _ (by rw [hlen]; omega) (by rw [hlen]; omega)
                | false =>
                  cases hurl : List.isPrefixOf urlPat tail with
                  | true =>
                    cases hcond : !bU || (bU && cfg.keep_url_only_if_no_doi && fl.has_doi) with
                    | true =>
                      cases hEol : findEndOfLine tail 0 with
                      | none => rfl
                      | some d =>
                        have hd : d < tail.length := findEndOfLine_lt tail 0 d hEol
                        have hlen : ('\n' :: tail.drop (d + 1)).length = tail.length - d := by
                          simp [List.length_drop]
                          omega
                        exact ih g' fl done _ (by rw [hlen]; omega) (by rw [hlen]; omega)
                    | false => exact ih g' fl (done ++ ['\n']) tail htail1 htail2
                  | false =>
                    cases hyr : List.isPrefixOf yearPat tail with
                    | true => exact ih g' _ (done ++ ['\n']) tail htail1 htail2
                    | false =>
                      cases hissn : List.isPrefixOf issnPat tail with
                      | true => exact ih g' _ (done ++ ['\n']) tail htail1 htail2
                      | false => exact ih g' fl (done ++ ['\n']) tail htail1 htail2
      | false =>
        cases hoe : List.isPrefixOf escOpenPat (c :: tail) with
        | true =>
          exact ih g' fl (done ++ [lbr]) _ (by simp [List.length_drop]; omega)
            (by simp [List.length_drop]; omega)
        | false =>
          cases hce : List.isPrefixOf escClosePat (c :: tail) with
          | true =>
            exact ih g' fl (done ++ [rbr]) _ (by simp [List.length_drop]; omega)
              (by simp [List.length_drop]; omega)
          | false => exact ih g' fl (done ++ [c]) tail htail1 htail2

theorem scanEntry_fuel (cfg : Config) (bU : Bool) (f : Nat) (fl : Flags)
    (done rest : List Char) (h : rest.length < f) :
    scanFuel cfg bU f fl done rest = scanEntry cfg bU fl done rest :=
  scanFuel_congr cfg bU f (rest.length + 1) fl done rest h (by omega)

/- Part 6: walking over chunks without edits. -/

theorem isPrefixOf_line (pat : List Char) (h : '\n' ∉ pat) : ∀ (x r : List Char),
    List.isPrefixOf pat (x ++ '\n' :: r) = List.isPrefixOf pat x := by
  induction pat with
  | nil => intro x r; simp [List.isPrefixOf]
  | cons p ps ih =>
    intro x r
    cases x with
    | nil =>
      have hp : p ≠ '\n' := fun hEq => h (by rw [hEq]; exact List.mem_cons_self _ _)
      have hb : (p == '\n') = false := beq_eq_false_iff_ne.mpr hp
      simp [List.isPrefixOf, hb]
    | cons a x' =>
      simp only [List.cons_append, List.isPrefixOf, List.append_eq]
      rw [ih (fun hm => h (List.mem_cons_of_mem _ hm)) x' r]

theorem chunkOK_cons (c : Char) (s : List Char) :
    chunkOK (c :: s) = true ↔
      c ≠ '\n' ∧ List.isPrefixOf escOpenPat (c :: s) = false
      ∧ List.isPrefixOf escClosePat (c :: s) = false ∧ chunkOK s = true := by
  simp [chunkOK, Bool.and_eq_true, bne_iff_ne, Bool.not_eq_true', and_assoc]

theorem scan_chunk (cfg : Config) (bU : Bool) : ∀ (ch : List Char), chunkOK ch = true →
    ∀ (fl : Flags) (done r : List Char),
    scanEntry cfg bU fl done (ch ++ '\n' :: r) = scanEntry cfg bU fl (done ++ ch) ('\n' :: r) := by
  intro ch
  induction ch with
  | nil => intro _ fl done r; simp
  | cons c ch' ih =>
    intro hOK fl done r
    obtain ⟨hc, ho, he, hrest⟩ := (chunkOK_cons c ch').mp hOK
    have hcb : (c == '\n') = false := beq_eq_false_iff_ne.mpr hc
    have ho' : List.isPrefixOf escOpenPat (c :: (ch' ++ '\n' :: r)) = false := by
      rw [show c :: (ch' ++ '\n' :: r) = (c :: ch') ++ '\n' :: r from rfl,
        isPrefixOf_line escOpenPat (by decide)]
      exact ho
    have he' : List.isPrefixOf escClosePat (c :: (ch' ++ '\n' :: r)) = false := by
      rw [show c :: (ch' ++ '\n' :: r) = (c :: ch') ++ '\n' :: r from rfl,
        isPrefixOf_line escClosePat (by decide)]
      exact he
    rw [show (c :: ch') ++ '\n' :: r = c :: (ch' ++ '\n' :: r) from rfl]
    rw [scanEntry, List.length_cons, scanFuel_cons]
    rw [hcb, ho', he']
    simp only [Bool.false_eq_true, if_false]
    rw [show scanFuel cfg bU ((ch' ++ '\n' :: r).length + 1) fl (done ++ [c]) (ch' ++ '\n' :: r)
      = scanEntry cfg bU fl (done ++ [c]) (ch' ++ '\n' :: r) from rfl]
    rw [ih hrest fl (done ++ [c]) r]
    simp

theorem scan_close (cfg : Config) (bU : Bool) (fl : Flags) (done : List Char) :
    scanEntry cfg bU fl done ['\n', rbr, '\n'] = some (done ++ ['\n', rbr, '\n'], fl) := by
  simp [scanEntry, scanFuel_cons, scanFuel_nil, List.isPrefixOf, monthPat, titlePat, annotePat,
    abstractPat, doiPat, filePat, urlPat, yearPat, issnPat, escOpenPat, escClosePat, lbr, rbr]

/- Part 7: benign values and chunk facts. -/

theorem bool_neg (b : Bool) (h : b = false) : ¬(b = true) := by
  rw [h]
  exact Bool.false_ne_true

theorem benignL_cons_iff (c : Char) (x : List Char) :
    benignL (c :: x) = true ↔ benignChar c = true ∧ benignL x = true := by
  simp [benignL]

theorem chunkOK_benign_append (x y : List Char) (hx : benignL x = true) (hy : chunkOK y = true) :
    chunkOK (x ++ y) = true := by
  induction x with
  | nil => simpa
  | cons c x' ih =>
    obtain ⟨hc0, hx'⟩ := (benignL_cons_iff c x').mp hx
    have hc := benign_of_mem (c :: x') hx c (List.mem_cons_self _ _)
    refine (chunkOK_cons _ _).mpr ⟨hc.1, ?_, ?_, ih hx'⟩
    · have hb : (lbr == c) = false := beq_eq_false_iff_ne.mpr (fun hEq => hc.2.1 hEq.symm)
      simp [escOpenPat, List.isPrefixOf, hb]
    · have hb : (lbr == c) = false := beq_eq_false_iff_ne.mpr (fun hEq => hc.2.1 hEq.symm)
      simp [escClosePat, List.isPrefixOf, hb]

theorem chunkOK_of_benign (x : List Char) (hx : benignL x = true) : chunkOK x = true := by
  have h := chunkOK_benign_append x [] hx rfl
  simpa using h

theorem chunkOK_braced (v : List Char) (hv : benignL v = true) :
    chunkOK (lbr :: v ++ [rbr, ',']) = true := by
  refine (chunkOK_cons _ _).mpr ⟨by decide, ?_, ?_, chunkOK_benign_append v [rbr, ','] hv (by decide)⟩
  · cases v with
    | nil => decide
    | cons a v' =>
      have ha := benign_of_mem _ hv a (List.mem_cons_self _ _)
      have hb : ('\\' == a) = false := beq_eq_false_iff_ne.mpr (fun hEq => ha.2.2.2 hEq.symm)
      simp [escOpenPat, List.isPrefixOf, hb]
  · cases v with
    | nil => decide
    | cons a v' =>
      have ha := benign_of_mem _ hv a (List.mem_cons_self _ _)
      have hb : ('\\' == a) = false := beq_eq_false_iff_ne.mpr (fun hEq => ha.2.2.2 hEq.symm)
      simp [escClosePat, List.isPrefixOf, hb]

theorem chunkOK_field (pre v : List Char) (hpre : benignL pre = true) (hv : benignL v = true) :
    chunkOK (pre ++ (lbr :: v ++ [rbr, ','])) = true :=
  chunkOK_benign_append _ _ hpre (chunkOK_braced v hv)

theorem noNl_field (pre v : List Char) (hpre : '\n' ∉ pre) (hv : benignL v = true) :
    '\n' ∉ pre ++ (lbr :: v ++ [rbr, ',']) := by
  intro hmem
  rcases List.mem_append.mp hmem with h | h
  · exact hpre h
  · rcases List.mem_append.mp h with h2 | h2
    · rcases List.mem_cons.mp h2 with h3 | h3
      · exact absurd h3 (by decide)
      · exact noNl_of_benign v hv h3
    · simp at h2
      exact absurd h2 (by decide)

theorem doiLine_eq (v : List Char) : doiLine v = (doiPat ++ [' ']) ++ (lbr :: v ++ [rbr, ',']) := by
  simp [doiLine]

theorem chunkOK_doiLine (v : List Char) (hv : benignL v = true) : chunkOK (doiLine v) = true := by
  rw [doiLine_eq]
  exact chunkOK_field _ v (by decide) hv

theorem noNl_doiLine (v : List Char) (hv : benignL v = true) : '\n' ∉ doiLine v := by
  rw [doiLine_eq]
  exact noNl_field _ v (by decide) hv

/- Part 8: single line dispatch steps. -/

theorem step_doi (cfg : Config) (bU : Bool) (fl : Flags) (done v : List Char)
    (ls : List (List Char)) (tl : List Char) (hv : benignL v = true) :
    scanEntry cfg bU fl done ('\n' :: bodyR (doiLine v :: ls) tl)
      = scanEntry cfg bU { fl with has_doi := true } (done ++ ('\n' :: doiLine v)) ('\n' :: bodyR ls tl) := by
  have hstep : scanEntry cfg bU fl done ('\n' :: bodyR (doiLine v :: ls) tl)
      = scanEntry cfg bU { fl with has_doi := true } (done ++ ['\n']) (doiLine v ++ '\n' :: bodyR ls tl) := by
    show scanFuel cfg bU (('\n' :: bodyR (doiLine v :: ls) tl).length + 1) fl done
      ('\n' :: bodyR (doiLine v :: ls) tl) = _
    rw [show bodyR (doiLine v :: ls) tl = doiLine v ++ '\n' :: bodyR ls tl from rfl]
    rw [List.length_cons, scanFuel_cons]
    rw [if_pos (show (('\n' : Char) == '\n') = true from rfl)]
    rw [if_neg (bool_neg _
      (show List.isPrefixOf monthPat (doiLine v ++ '\n' :: bodyR ls tl) = false from rfl))]
    rw [if_neg (bool_neg _
      (show List.isPrefixOf titlePat (doiLine v ++ '\n' :: bodyR ls tl) = false from rfl))]
    rw [if_neg (bool_neg _ (by
      rw [show List.isPrefixOf annotePat (doiLine v ++ '\n' :: bodyR ls tl) = false from rfl,
        show List.isPrefixOf abstractPat (doiLine v ++ '\n' :: bodyR ls tl) = false from rfl]
      simp))]
    rw [if_pos (show List.isPrefixOf doiPat (doiLine v ++ '\n' :: bodyR ls tl) = true from rfl)]
    rfl
  rw [hstep, scan_chunk cfg bU (doiLine v) (chunkOK_doiLine v hv)]
  simp

theorem urlLine_eq (v : List Char) : urlLine v = (urlPat ++ [' ']) ++ (lbr :: v ++ [rbr, ',']) := by
  simp [urlLine]

theorem chunkOK_urlLine (v : List Char) (hv : benignL v = true) : chunkOK (urlLine v) = true := by
  rw [urlLine_eq]
  exact chunkOK_field _ v (by decide) hv

theorem noNl_urlLine (v : List Char) (hv : benignL v = true) : '\n' ∉ urlLine v := by
  rw [urlLine_eq]
  exact noNl_field _ v (by decide) hv

theorem yearLine_eq (v : List Char) : yearLine v = (yearPat ++ [' ']) ++ (lbr :: v ++ [rbr, ',']) := by
  simp [yearLine]

theorem chunkOK_yearLine (v : List Char) (hv : benignL v = true) : chunkOK (yearLine v) = true := by
  rw [yearLine_eq]
  exact chunkOK_field _ v (by decide) hv

theorem issnLine_eq (v : List Char) : issnLine v = (issnPat ++ [' ']) ++ (lbr :: v ++ [rbr, ',']) := by
  simp [issnLine]

theorem chunkOK_issnLine (v : List Char) (hv : benignL v = true) : chunkOK (issnLine v) = true := by
  rw [issnLine_eq]
  exact chunkOK_field _ v (by decide) hv

theorem step_year (cfg : Config) (bU : Bool) (fl : Flags) (done v : List Char)
    (ls : List (List Char)) (tl : List Char) (hv : benignL v = true) :
    scanEntry cfg bU fl done ('\n' :: bodyR (yearLine v :: ls) tl)
      = scanEntry cfg bU { fl with bHasYear := true } (done ++ ('\n' :: yearLine v)) ('\n' :: bodyR ls tl) := by
  have hstep : scanEntry cfg bU fl done ('\n' :: bodyR (yearLine v :: ls) tl)
      = scanEntry cfg bU { fl with bHasYear := true } (done ++ ['\n']) (yearLine v ++ '\n' :: bodyR ls tl) := by
    show scanFuel cfg bU (('\n' :: bodyR (yearLine v :: ls) tl).length + 1) fl done
      ('\n' :: bodyR (yearLine v :: ls) tl) = _
    rw [show bodyR (yearLine v :: ls) tl = yearLine v ++ '\n' :: bodyR ls tl from rfl]
    rw [List.length_cons, scanFuel_cons]
    rw [if_pos (show (('\n' : Char) == '\n') = true from rfl)]
    rw [if_neg (bool_neg _
      (show List.isPrefixOf monthPat (yearLine v ++ '\n' :: bodyR ls tl) = false from rfl))]
    rw [if_neg (bool_neg _
      (show List.isPrefixOf titlePat (yearLine v ++ '\n' :: bodyR ls tl) = false from rfl))]
    rw [if_neg (bool_neg _ (by
      rw [show List.isPrefixOf annotePat (yearLine v ++ '\n' :: bodyR ls tl) = false from rfl,
        show List.isPrefixOf abstractPat (yearLine v ++ '\n' :: bodyR ls tl) = false from rfl]
      simp))]
    rw [if_neg (bool_neg _
      (show List.isPrefixOf doiPat (yearLine v ++ '\n' :: bodyR ls tl) = false from rfl))]
    rw [if_neg (bool_neg _
      (show List.isPrefixOf filePat (yearLine v ++ '\n' :: bodyR ls tl) = false from rfl))]
    rw [if_neg (bool_neg _
      (show List.isPrefixOf urlPat (yearLine v ++ '\n' :: bodyR ls tl) = false from rfl))]
    rw [if_pos (show List.isPrefixOf yearPat (yearLine v ++ '\n' :: bodyR ls tl) = true from rfl)]
    rfl
  rw [hstep, scan_chunk cfg bU (yearLine v) (chunkOK_yearLine v hv)]
  simp

theorem step_issn (cfg : Config) (bU : Bool) (fl : Flags) (done v : List Char)
    (ls : List (List Char)) (tl : List Char) (hv : benignL v = true) :
    scanEntry cfg bU fl done ('\n' :: bodyR (issnLine v :: ls) tl)
      = scanEntry cfg bU { fl with bHasISSN := true, issnInd := done.length + 1 }
        (done ++ ('\n' :: issnLine v)) ('\n' :: bodyR ls tl) := by
  have hstep : scanEntry cfg bU fl done ('\n' :: bodyR (issnLine v :: ls) tl)
      = scanEntry cfg bU { fl with bHasISSN := true, issnInd := done.length + 1 }
        (done ++ ['\n']) (issnLine v ++ '\n' :: bodyR ls tl) := by
    show scanFuel cfg bU (('\n' :: bodyR (issnLine v :: ls) tl).length + 1) fl done
      ('\n' :: bodyR (issnLine v :: ls) tl) = _
    rw [show bodyR (issnLine v :: ls) tl = issnLine v ++ '\n' :: bodyR ls tl from rfl]
    rw [List.length_cons, scanFuel_cons]
    rw [if_pos (show (('\n' : Char) == '\n') = true from rfl)]
    rw [if_neg (bool_neg _
      (show List.isPrefixOf monthPat (issnLine v ++ '\n' :: bodyR ls tl) = false from rfl))]
    rw [if_neg (bool_neg _
      (show List.isPrefixOf titlePat (issnLine v ++ '\n' :: bodyR ls tl) = false from rfl))]
    rw [if_neg (bool_neg _ (by
      rw [show List.isPrefixOf annotePat (issnLine v ++ '\n' :: bodyR ls tl) = false from rfl,
        show List.isPrefixOf abstractPat (issnLine v ++ '\n' :: bodyR ls tl) = false from rfl]
      simp))]
    rw [if_neg (bool_neg _
      (show List.isPrefixOf doiPat (issnLine v ++ '\n' :: bodyR ls tl) = false from rfl))]
    rw [if_neg (bool_neg _
      (show List.isPrefixOf filePat (issnLine v ++ '\n' :: bodyR ls tl) = false from rfl))]
    rw [if_neg (bool_neg _
      (show List.isPrefixOf urlPat (issnLine v ++ '\n' :: bodyR ls tl) = false from rfl))]
    rw [if_neg (bool_neg _
      (show List.isPrefixOf yearPat (issnLine v ++ '\n' :: bodyR ls tl) = false from rfl))]
    rw [if_pos (show List.isPrefixOf issnPat (issnLine v ++ '\n' :: bodyR ls tl) = true from rfl)]
    rfl
  rw [hstep, scan_chunk cfg bU (issnLine v) (chunkOK_issnLine v hv)]
  simp

theorem step_url_del (cfg : Config) (bU : Bool) (fl : Flags) (done v : List Char)
    (ls : List (List Char)) (tl : List Char) (hv : benignL v = true)
    (hcond : (!bU || (bU && cfg.keep_url_only_if_no_doi && fl.has_doi)) = true) :
    scanEntry cfg bU fl done ('\n' :: bodyR (urlLine v :: ls) tl)
      = scanEntry cfg bU fl done ('\n' :: bodyR ls tl) := by
  show scanFuel cfg bU (('\n' :: bodyR (urlLine v :: ls) tl).length + 1) fl done
    ('\n' :: bodyR (urlLine v :: ls) tl) = _
  rw [show bodyR (urlLine v :: ls) tl = urlLine v ++ '\n' :: bodyR ls tl from rfl]
  rw [List.length_cons, scanFuel_cons]
  rw [if_pos (show (('\n' : Char) == '\n') = true from rfl)]
  rw [if_neg (bool_neg _
    (show List.isPrefixOf monthPat (urlLine v ++ '\n' :: bodyR ls tl) = false from rfl))]
  rw [if_neg (bool_neg _
    (show List.isPrefixOf titlePat (urlLine v ++ '\n' :: bodyR ls tl) = false from rfl))]
  rw [if_neg (bool_neg _ (by
    rw [show List.isPrefixOf annotePat (urlLine v ++ '\n' :: bodyR ls tl) = false from rfl,
      show List.isPrefixOf abstractPat (urlLine v ++ '\n' :: bodyR ls tl) = false from rfl]
    simp))]
  rw [if_neg (bool_neg _
    (show List.isPrefixOf doiPat (urlLine v ++ '\n' :: bodyR ls tl) = false from rfl))]
  rw [if_neg (bool_neg _
    (show List.isPrefixOf filePat (urlLine v ++ '\n' :: bodyR ls tl) = false from rfl))]
  rw [if_pos (show List.isPrefixOf urlPat (urlLine v ++ '\n' :: bodyR ls tl) = true from rfl)]
  rw [if_pos hcond]
  rw [findEndOfLine_line (urlLine v) (bodyR ls tl) (noNl_urlLine v hv)]
  show scanFuel cfg bU ((urlLine v ++ '\n' :: bodyR ls tl).length + 1) fl done
    ('\n' :: (urlLine v ++ '\n' :: bodyR ls tl).drop ((urlLine v).length + 1)) = _
  rw [drop_line (urlLine v) (bodyR ls tl)]
  rw [scanEntry_fuel cfg bU ((urlLine v ++ '\n' :: bodyR ls tl).length + 1) fl done
    ('\n' :: bodyR ls tl) (by simp [List.length_append]; omega)]

theorem noCat_unpack (L : List Char) (h : noCat L = true) :
    List.isPrefixOf monthPat L = false ∧ List.isPrefixOf titlePat L = false
    ∧ List.isPrefixOf annotePat L = false ∧ List.isPrefixOf abstractPat L = false
    ∧ List.isPrefixOf doiPat L = false ∧ List.isPrefixOf filePat L = false
    ∧ List.isPrefixOf urlPat L = false ∧ List.isPrefixOf yearPat L = false
    ∧ List.isPrefixOf issnPat L = false := by
  simp only [noCat, Bool.and_eq_true, Bool.not_eq_true'] at h
  tauto

theorem step_neutral (cfg : Config) (bU : Bool) (fl : Flags) (done : List Char)
    (L : List Char) (ls : List (List Char)) (tl : List Char)
    (hcat : noCat L = true) (hch : chunkOK L = true) :
    scanEntry cfg bU fl done ('\n' :: bodyR (L :: ls) tl)
      = scanEntry cfg bU fl (done ++ ('\n' :: L)) ('\n' :: bodyR ls tl) := by
  obtain ⟨h1, h2, h3, h4, h5, h6, h7, h8, h9⟩ := noCat_unpack L hcat
  have t1 : List.isPrefixOf monthPat (L ++ '\n' :: bodyR ls tl) = false := by
    rw [isPrefixOf_line monthPat (by decide)]; exact h1
  have t2 : List.isPrefixOf titlePat (L ++ '\n' :: bodyR ls tl) = false := by
    rw [isPrefixOf_line titlePat (by decide)]; exact h2
  have t3 : List.isPrefixOf annotePat (L ++ '\n' :: bodyR ls tl) = false := by
    rw [isPrefixOf_line annotePat (by decide)]; exact h3
  have t4 : List.isPrefixOf abstractPat (L ++ '\n' :: bodyR ls tl) = false := by
    rw [isPrefixOf_line abstractPat (by decide)]; exact h4
  have t5 : List.isPrefixOf doiPat (L ++ '\n' :: bodyR ls tl) = false := by
    rw [isPrefixOf_line doiPat (by decide)]; exact h5
  have t6 : List.isPrefixOf filePat (L ++ '\n' :: bodyR ls tl) = false := by
    rw [isPrefixOf_line filePat (by decide)]; exact h6
  have t7 : List.isPrefixOf urlPat (L ++ '\n' :: bodyR ls tl) = false := by
    rw [isPrefixOf_line urlPat (by decide)]; exact h7
  have t8 : List.isPrefixOf yearPat (L ++ '\n' :: bodyR ls tl) = false := by
    rw [isPrefixOf_line yearPat (by decide)]; exact h8
  have t9 : List.isPrefixOf issnPat (L ++ '\n' :: bodyR ls tl) = false := by
    rw [isPrefixOf_line issnPat (by decide)]; exact h9
  have hstep : scanEntry cfg bU fl done ('\n' :: bodyR (L :: ls) tl)
      = scanEntry cfg bU fl (done ++ ['\n']) (L ++ '\n' :: bodyR ls tl) := by
    show scanFuel cfg bU (('\n' :: bodyR (L :: ls) tl).length + 1) fl done
      ('\n' :: bodyR (L :: ls) tl) = _
    rw [show bodyR (L :: ls) tl = L ++ '\n' :: bodyR ls tl from rfl]
    rw [List.length_cons, scanFuel_cons]
    rw [if_pos (show (('\n' : Char) == '\n') = true from rfl)]
    rw [if_neg (bool_neg _ t1), if_neg (bool_neg _ t2)]
    rw [if_neg (bool_neg _ (by rw [t3, t4]; simp))]
    rw [if_neg (bool_neg _ t5), if_neg (bool_neg _ t6), if_neg (bool_neg _ t7),
      if_neg (bool_neg _ t8), if_neg (bool_neg _ t9)]
    rfl
  rw [hstep, scan_chunk cfg bU L hch]
  simp

theorem chunkOK_monthFixedL (a b c : Char) (hab : benignL [a, b, c] = true) :
    chunkOK (monthFixedL a b c) = true := by
  rw [show monthFixedL a b c = (monthPat ++ [' ']) ++ ([a, b, c] ++ [',']) by simp [monthFixedL]]
  exact chunkOK_benign_append _ _ (by decide)
    (chunkOK_benign_append [a, b, c] [','] hab (by decide))

theorem chunkOK_monthBr4 (a b c d : Char) (hv : benignL [a, b, c, d] = true) :
    chunkOK (monthBr4 a b c d) = true := by
  rw [show monthBr4 a b c d = (monthPat ++ [' ']) ++ (lbr :: [a, b, c, d] ++ [rbr, ','])
    by simp [monthBr4]]
  exact chunkOK_field _ _ (by decide) hv

theorem chunkOK_monthDD (a b c : Char) (hab : benignL [a, b, c] = true) :
    chunkOK (monthDD a b c) = true := by
  have ha := benign_of_mem _ hab a (by simp)
  have hba : ('\\' == a) = false := beq_eq_false_iff_ne.mpr (fun hEq => ha.2.2.2 hEq.symm)
  rw [show monthDD a b c = (monthPat ++ [' ']) ++ (lbr :: lbr :: ([a, b, c] ++ [rbr, rbr, ',']))
    by simp [monthDD]]
  apply chunkOK_benign_append _ _ (by decide)
  refine (chunkOK_cons _ _).mpr ⟨by decide, rfl, rfl, ?_⟩
  refine (chunkOK_cons _ _).mpr ⟨by decide, ?_, ?_,
    chunkOK_benign_append [a, b, c] [rbr, rbr, ','] hab (by decide)⟩
  · simp [escOpenPat, List.isPrefixOf, List.cons_append, hba]
  · simp [escClosePat, List.isPrefixOf, List.cons_append, hba]

theorem step_month_fix (cfg : Config) (bU : Bool) (fl : Flags) (done : List Char)
    (a b c : Char) (ls : List (List Char)) (tl : List Char) (hab : benignL [a, b, c] = true) :
    scanEntry cfg bU fl done ('\n' :: bodyR (monthBr a b c :: ls) tl)
      = scanEntry cfg bU fl (done ++ ('\n' :: monthFixedL a b c)) ('\n' :: bodyR ls tl) := by
  show scanFuel cfg bU (('\n' :: bodyR (monthBr a b c :: ls) tl).length + 1) fl done
    ('\n' :: bodyR (monthBr a b c :: ls) tl) = _
  rw [show bodyR (monthBr a b c :: ls) tl = monthBr a b c ++ '\n' :: bodyR ls tl from rfl]
  rw [List.length_cons, scanFuel_cons]
  rw [if_pos (show (('\n' : Char) == '\n') = true from rfl)]
  rw [if_pos (show List.isPrefixOf monthPat (monthBr a b c ++ '\n' :: bodyR ls tl) = true from rfl)]
  rw [if_pos (show (gc (monthBr a b c ++ '\n' :: bodyR ls tl) 8 == lbr
    && gc (monthBr a b c ++ '\n' :: bodyR ls tl) 12 == rbr) = true from rfl)]
  rw [show ((monthBr a b c ++ '\n' :: bodyR ls tl).take 8
      ++ [gc (monthBr a b c ++ '\n' :: bodyR ls tl) 9, gc (monthBr a b c ++ '\n' :: bodyR ls tl) 10,
          gc (monthBr a b c ++ '\n' :: bodyR ls tl) 11]
      ++ (monthBr a b c ++ '\n' :: bodyR ls tl).drop 13)
    = monthFixedL a b c ++ '\n' :: bodyR ls tl from rfl]
  rw [scanEntry_fuel cfg bU ((monthBr a b c ++ '\n' :: bodyR ls tl).length + 1) fl (done ++ ['\n'])
    (monthFixedL a b c ++ '\n' :: bodyR ls tl)
    (by simp [monthBr, monthFixedL, monthPat, List.length_append])]
  rw [scan_chunk cfg bU (monthFixedL a b c) (chunkOK_monthFixedL a b c hab)]
  simp

theorem step_month_DD (cfg : Config) (bU : Bool) (fl : Flags) (done : List Char)
    (a b c : Char) (ls : List (List Char)) (tl : List Char) (hab : benignL [a, b, c] = true) :
    scanEntry cfg bU fl done ('\n' :: bodyR (monthDD a b c :: ls) tl)
      = scanEntry cfg bU fl (done ++ ('\n' :: monthDD a b c)) ('\n' :: bodyR ls tl) := by
  have hc := benign_of_mem _ hab c (by simp)
  have hcr : (c == rbr) = false := beq_eq_false_iff_ne.mpr hc.2.2.1
  have hgf : (gc (monthDD a b c ++ '\n' :: bodyR ls tl) 8 == lbr
      && gc (monthDD a b c ++ '\n' :: bodyR ls tl) 12 == rbr) = false := by
    show (((lbr == lbr) && (c == rbr)) = false)
    rw [hcr]
    simp
  show scanFuel cfg bU (('\n' :: bodyR (monthDD a b c :: ls) tl).length + 1) fl done
    ('\n' :: bodyR (monthDD a b c :: ls) tl) = _
  rw [show bodyR (monthDD a b c :: ls) tl = monthDD a b c ++ '\n' :: bodyR ls tl from rfl]
  rw [List.length_cons, scanFuel_cons]
  rw [if_pos (show (('\n' : Char) == '\n') = true from rfl)]
  rw [if_pos (show List.isPrefixOf monthPat (monthDD a b c ++ '\n' :: bodyR ls tl) = true from rfl)]
  rw [if_neg (bool_neg _ hgf)]
  rw [show scanFuel cfg bU ((monthDD a b c ++ '\n' :: bodyR ls tl).length + 1) fl (done ++ ['\n'])
    (monthDD a b c ++ '\n' :: bodyR ls tl)
    = scanEntry cfg bU fl (done ++ ['\n']) (monthDD a b c ++ '\n' :: bodyR ls tl) from rfl]
  rw [scan_chunk cfg bU (monthDD a b c) (chunkOK_monthDD a b c hab)]
  simp

theorem step_month_Br4 (cfg : Config) (bU : Bool) (fl : Flags) (done : List Char)
    (a b c d : Char) (ls : List (List Char)) (tl : List Char)
    (hv : benignL [a, b, c, d] = true) :
    scanEntry cfg bU fl done ('\n' :: bodyR (monthBr4 a b c d :: ls) tl)
      = scanEntry cfg bU fl (done ++ ('\n' :: monthBr4 a b c d)) ('\n' :: bodyR ls tl) := by
  have hd := benign_of_mem _ hv d (by simp)
  have hdr : (d == rbr) = false := beq_eq_false_iff_ne.mpr hd.2.2.1
  have hgf : (gc (monthBr4 a b c d ++ '\n' :: bodyR ls tl) 8 == lbr
      && gc (monthBr4 a b c d ++ '\n' :: bodyR ls tl) 12 == rbr) = false := by
    show (((lbr == lbr) && (d == rbr)) = false)
    rw [hdr]
    simp
  show scanFuel cfg bU (('\n' :: bodyR (monthBr4 a b c d :: ls) tl).length + 1) fl done
    ('\n' :: bodyR (monthBr4 a b c d :: ls) tl) = _
  rw [show bodyR (monthBr4 a b c d :: ls) tl = monthBr4 a b c d ++ '\n' :: bodyR ls tl from rfl]
  rw [List.length_cons, scanFuel_cons]
  rw [if_pos (show (('\n' : Char) == '\n') = true from rfl)]
  rw [if_pos (show List.isPrefixOf monthPat (monthBr4 a b c d ++ '\n' :: bodyR ls tl) = true from rfl)]
  rw [if_neg (bool_neg _ hgf)]
  rw [show scanFuel cfg bU ((monthBr4 a b c d ++ '\n' :: bodyR ls tl).length + 1) fl (done ++ ['\n'])
    (monthBr4 a b c d ++ '\n' :: bodyR ls tl)
    = scanEntry cfg bU fl (done ++ ['\n']) (monthBr4 a b c d ++ '\n' :: bodyR ls tl) from rfl]
  rw [scan_chunk cfg bU (monthBr4 a b c d) (chunkOK_monthBr4 a b c d hv)]
  simp

theorem noNl_titleDD (v : List Char) (hv : benignL v = true) : '\n' ∉ titleDD v := by
  intro hmem
  simp [titleDD, titlePat, lbr, rbr, List.mem_append, List.mem_cons] at hmem
  exact noNl_of_benign v hv hmem

theorem chunkOK_titleSingle (v : List Char) (hv : benignL v = true) :
    chunkOK (titleSingle v) = true := by
  rw [show titleSingle v = (titlePat ++ [' ']) ++ (lbr :: v ++ [rbr, ',']) by simp [titleSingle]]
  exact chunkOK_field _ v (by decide) hv

theorem step_title_fix (cfg : Config) (bU : Bool) (fl : Flags) (done v : List Char)
    (ls : List (List Char)) (tl : List Char) (hv : benignL v = true) :
    scanEntry cfg bU fl done ('\n' :: bodyR (titleDD v :: ls) tl)
      = scanEntry cfg bU fl (done ++ ('\n' :: titleSingle v)) ('\n' :: bodyR ls tl) := by
  have hlen : (titleDD v).length = v.length + 13 := by
    simp [titleDD, titlePat]
  show scanFuel cfg bU (('\n' :: bodyR (titleDD v :: ls) tl).length + 1) fl done
    ('\n' :: bodyR (titleDD v :: ls) tl) = _
  rw [show bodyR (titleDD v :: ls) tl = titleDD v ++ '\n' :: bodyR ls tl from rfl]
  rw [List.length_cons, scanFuel_cons]
  rw [if_pos (show (('\n' : Char) == '\n') = true from rfl)]
  rw [if_neg (bool_neg _
    (show List.isPrefixOf monthPat (titleDD v ++ '\n' :: bodyR ls tl) = false from rfl))]
  rw [if_pos (show List.isPrefixOf titlePat (titleDD v ++ '\n' :: bodyR ls tl) = true from rfl)]
  rw [findEndOfLine_line (titleDD v) (bodyR ls tl) (noNl_titleDD v hv)]
  show (if 12 ≤ (titleDD v).length then
      scanFuel cfg bU ((titleDD v ++ '\n' :: bodyR ls tl).length + 1) fl (done ++ ['\n'])
        ((titleDD v ++ '\n' :: bodyR ls tl).take 9
          ++ ((titleDD v ++ '\n' :: bodyR ls tl).drop 10).take ((titleDD v).length - 12)
          ++ (titleDD v ++ '\n' :: bodyR ls tl).drop ((titleDD v).length - 1))
    else none) = _
  rw [if_pos (show 12 ≤ (titleDD v).length by rw [hlen]; omega)]
  have hrest : ((titleDD v ++ '\n' :: bodyR ls tl).take 9
      ++ ((titleDD v ++ '\n' :: bodyR ls tl).drop 10).take ((titleDD v).length - 12)
      ++ (titleDD v ++ '\n' :: bodyR ls tl).drop ((titleDD v).length - 1))
      = titleSingle v ++ '\n' :: bodyR ls tl := by
    rw [hlen]
    rw [show (titleDD v ++ '\n' :: bodyR ls tl).take 9 = titlePat ++ [' ', lbr] from rfl]
    rw [show (titleDD v ++ '\n' :: bodyR ls tl).drop 10
      = (v ++ [rbr, rbr, ',']) ++ '\n' :: bodyR ls tl from rfl]
    rw [List.append_assoc v [rbr, rbr, ','] ('\n' :: bodyR ls tl)]
    rw [show ([rbr, rbr, ','] : List Char) ++ '\n' :: bodyR ls tl
      = rbr :: rbr :: ',' :: '\n' :: bodyR ls tl from rfl]
    rw [show v.length + 13 - 12 = v.length + 1 by omega]
    rw [List.take_append 1]
    rw [show (rbr :: rbr :: ',' :: '\n' :: bodyR ls tl).take 1 = [rbr] from rfl]
    rw [show v.length + 13 - 1 = v.length + 12 by omega]
    rw [show titleDD v ++ '\n' :: bodyR ls tl
      = ((titlePat ++ [' ', lbr, lbr]) ++ (v ++ [rbr, rbr])) ++ ',' :: '\n' :: bodyR ls tl
      by simp [titleDD]]
    rw [List.drop_left'
      (show ((titlePat ++ [' ', lbr, lbr]) ++ (v ++ [rbr, rbr])).length = v.length + 12
        by simp [titlePat])]
    simp [titleSingle]
  rw [hrest]
  rw [scanEntry_fuel cfg bU ((titleDD v ++ '\n' :: bodyR ls tl).length + 1) fl (done ++ ['\n'])
    (titleSingle v ++ '\n' :: bodyR ls tl)
    (by simp only [List.length_append, List.length_cons, hlen,
      show (titleSingle v).length = v.length + 11 by simp [titleSingle, titlePat]]; omega)]
  rw [scan_chunk cfg bU (titleSingle v) (chunkOK_titleSingle v hv)]
  simp

theorem bodyLen_append (xs ys : List (List Char)) :
    bodyLen (xs ++ ys) = bodyLen xs + bodyLen ys := by
  induction xs with
  | nil => simp [bodyLen]
  | cons L ls ih =>
    simp [bodyLen, ih]
    omega

theorem bodyR_length (xs : List (List Char)) (R : List Char) :
    (bodyR xs R).length = bodyLen xs + R.length := by
  induction xs with
  | nil => simp [bodyR, bodyLen]
  | cons L ls ih =>
    simp [bodyR, bodyLen, ih]
    omega

theorem noNl_annoteFirst (w : List Char) (hw : '\n' ∉ w) : '\n' ∉ annoteFirst w := by
  intro hmem
  simp [annoteFirst, annotePat, lbr, List.mem_append, List.mem_cons] at hmem
  exact hw hmem

theorem step_annote_del (cfg : Config) (bU : Bool) (fl : Flags) (done : List Char)
    (w : List Char) (mids : List (List Char)) (Z : List Char)
    (ls : List (List Char)) (tl : List Char)
    (hka : cfg.keep_annote = false)
    (hw : '\n' ∉ w) (hA0t : endsTerm (annoteFirst w) = false)
    (hm : ∀ M ∈ mids, '\n' ∉ M ∧ endsTerm M = false)
    (hZ : '\n' ∉ Z) (hZt : endsTerm Z = true) :
    scanEntry cfg bU fl done ('\n' :: bodyR (annoteFirst w :: (mids ++ Z :: ls)) tl)
      = scanEntry cfg bU fl done ('\n' :: bodyR ls tl) := by
  have hsplit : bodyR (annoteFirst w :: (mids ++ Z :: ls)) tl
      = bodyR ((annoteFirst w :: mids) ++ [Z]) (bodyR ls tl) := by
    rw [show annoteFirst w :: (mids ++ Z :: ls) = ((annoteFirst w :: mids) ++ [Z]) ++ ls by simp]
    rw [bodyR_append]
  rw [hsplit]
  show scanFuel cfg bU
    (('\n' :: bodyR ((annoteFirst w :: mids) ++ [Z]) (bodyR ls tl)).length + 1) fl done
    ('\n' :: bodyR ((annoteFirst w :: mids) ++ [Z]) (bodyR ls tl)) = _
  rw [List.length_cons, scanFuel_cons]
  rw [if_pos (show (('\n' : Char) == '\n') = true from rfl)]
  rw [if_neg (bool_neg _ (show List.isPrefixOf monthPat
    (bodyR ((annoteFirst w :: mids) ++ [Z]) (bodyR ls tl)) = false from rfl))]
  rw [if_neg (bool_neg _ (show List.isPrefixOf titlePat
    (bodyR ((annoteFirst w :: mids) ++ [Z]) (bodyR ls tl)) = false from rfl))]
  rw [if_pos (show ((!cfg.keep_annote && List.isPrefixOf annotePat
      (bodyR ((annoteFirst w :: mids) ++ [Z]) (bodyR ls tl)))
      || (!cfg.keep_abstract && List.isPrefixOf abstractPat
      (bodyR ((annoteFirst w :: mids) ++ [Z]) (bodyR ls tl)))) = true by
    rw [hka, show List.isPrefixOf annotePat
      (bodyR ((annoteFirst w :: mids) ++ [Z]) (bodyR ls tl)) = true from rfl]
    simp)]
  rw [findEndOfField_body (annoteFirst w) mids Z (bodyR ls tl)
    (noNl_annoteFirst w hw) hA0t hm hZ hZt]
  show scanFuel cfg bU
    ((bodyR ((annoteFirst w :: mids) ++ [Z]) (bodyR ls tl)).length + 1) fl done
    ('\n' :: (bodyR ((annoteFirst w :: mids) ++ [Z]) (bodyR ls tl)).drop
      (bodyLen (annoteFirst w :: mids) + Z.length + 1)) = _
  rw [show bodyLen (annoteFirst w :: mids) + Z.length + 1
      = bodyLen ((annoteFirst w :: mids) ++ [Z]) by
    rw [bodyLen_append]
    simp [bodyLen]
    omega]
  rw [drop_bodyR]
  rw [scanEntry_fuel cfg bU
    ((bodyR ((annoteFirst w :: mids) ++ [Z]) (bodyR ls tl)).length + 1) fl done
    ('\n' :: bodyR ls tl) (by
      rw [bodyR_length, bodyLen_append]
      simp [bodyLen])]

/- Part 9: whole record assembly. -/

theorem countUntilBrace_cons (c : Char) (x : List Char) (f : Nat) :
    countUntilBrace (c :: x) (f + 1) = if c == lbr then 0 else 1 + countUntilBrace x f := rfl

theorem countUntilBrace_eq (ty : List Char) (r : List Char) : ∀ (f : Nat), lbr ∉ ty →
    ty.length ≤ f → countUntilBrace (ty ++ lbr :: r) f = ty.length := by
  induction ty with
  | nil =>
    intro f h hl
    cases f with
    | zero => rfl
    | succ f => simp [countUntilBrace_cons]
  | cons c ty' ih =>
    intro f h hl
    simp only [List.length_cons] at hl
    obtain ⟨f', rfl⟩ : ∃ f', f = f' + 1 := ⟨f - 1, by omega⟩
    have hc : c ≠ lbr := fun hEq => h (by rw [hEq]; exact List.mem_cons_self _ _)
    have hcb : (c == lbr) = false := beq_eq_false_iff_ne.mpr hc
    rw [show (c :: ty') ++ lbr :: r = c :: (ty' ++ lbr :: r) from rfl]
    rw [countUntilBrace_cons, if_neg (bool_neg _ hcb)]
    rw [ih f' (fun hm => h (List.mem_cons_of_mem _ hm)) (by omega)]
    simp
    omega

theorem typeEnd_recordR (ty key : List Char) (lines : List (List Char))
    (hty : lbr ∉ ty) (hlen : ty.length ≤ 23) :
    typeEnd (recordR ty key lines) = 1 + ty.length := by
  rw [typeEnd, show (recordR ty key lines).drop 1
    = ty ++ lbr :: (key ++ (',' :: '\n' :: bodyR lines (rbr :: ['\n']))) from rfl]
  rw [countUntilBrace_eq ty _ 24 hty (by omega)]

theorem chunkOK_header (key : List Char) (hkey : benignL key = true) :
    chunkOK (lbr :: (key ++ [','])) = true := by
  refine (chunkOK_cons _ _).mpr ⟨by decide, ?_, ?_, chunkOK_benign_append key [','] hkey (by decide)⟩
  · cases key with
    | nil => decide
    | cons a k =>
      have ha := benign_of_mem _ hkey a (List.mem_cons_self _ _)
      have hb : ('\\' == a) = false := beq_eq_false_iff_ne.mpr (fun hEq => ha.2.2.2 hEq.symm)
      simp [escOpenPat, List.isPrefixOf, hb]
  · cases key with
    | nil => decide
    | cons a k =>
      have ha := benign_of_mem _ hkey a (List.mem_cons_self _ _)
      have hb : ('\\' == a) = false := beq_eq_false_iff_ne.mpr (fun hEq => ha.2.2.2 hEq.symm)
      simp [escClosePat, List.isPrefixOf, hb]

theorem fixEntry_recordR (cfg : Config) (ty key : List Char) (lines : List (List Char))
    (hty : lbr ∉ ty) (hlen : ty.length ≤ 23) (hkey : benignL key = true)
    (hissn : cfg.turn_issn_into_missing_year = false) :
    fixEntry cfg (recordR ty key lines)
      = (scanEntry cfg (URL_EXCEPTION_TYPES.contains ty || cfg.turn_every_entry_url_exception)
          initFlags (headerD ty key) ('\n' :: bodyR lines (rbr :: ['\n']))).map
          (fun pr => pr.1) := by
  unfold fixEntry
  rw [typeEnd_recordR ty key lines hty hlen]
  rw [show (recordR ty key lines).drop 1
    = ty ++ lbr :: (key ++ (',' :: '\n' :: bodyR lines (rbr :: ['\n']))) from rfl]
  rw [show 1 + ty.length - 1 = ty.length by omega]
  rw [List.take_left]
  rw [show (recordR ty key lines).take (1 + ty.length) = '@' :: ty by
    rw [show recordR ty key lines
      = '@' :: (ty ++ (lbr :: (key ++ (',' :: '\n' :: bodyR lines (rbr :: ['\n']))))) from rfl]
    rw [show 1 + ty.length = ty.length + 1 by omega]
    rw [List.take_succ_cons, List.take_left]]
  rw [show (recordR ty key lines).drop (1 + ty.length)
      = lbr :: (key ++ (',' :: '\n' :: bodyR lines (rbr :: ['\n']))) by
    rw [show recordR ty key lines
      = '@' :: (ty ++ (lbr :: (key ++ (',' :: '\n' :: bodyR lines (rbr :: ['\n']))))) from rfl]
    rw [show 1 + ty.length = ty.length + 1 by omega]
    rw [List.drop_succ_cons, List.drop_left]]
  rw [show (lbr :: (key ++ (',' :: '\n' :: bodyR lines (rbr :: ['\n']))))
      = (lbr :: (key ++ [','])) ++ '\n' :: bodyR lines (rbr :: ['\n']) by simp]
  rw [scan_chunk cfg _ (lbr :: (key ++ [','])) (chunkOK_header key hkey)]
  rw [show ('@' :: ty) ++ (lbr :: (key ++ [','])) = headerD ty key from List.cons_append '@' ty _]
  cases hscan : scanEntry cfg
      (URL_EXCEPTION_TYPES.contains ty || cfg.turn_every_entry_url_exception)
      initFlags (headerD ty key) ('\n' :: bodyR lines (rbr :: ['\n'])) with
  | none => rfl
  | some pr =>
    cases pr with
    | mk e2 fl =>
      simp [hissn]

theorem recordR_prefR (ty key : List Char) (ls : List (List Char)) :
    recordR ty key ls = headerD ty key ++ (prefR ls ++ ['\n', rbr, '\n']) := by
  have h := prefR_bodyR ls (rbr :: ['\n'])
  rw [show recordR ty key ls
    = '@' :: (ty ++ (lbr :: (key ++ (',' :: ('\n' :: bodyR ls (rbr :: ['\n'])))))) from rfl]
  rw [h]
  simp [headerD]

theorem scan_inert_lines (cfg : Config) (bU : Bool) : ∀ (ls : List (List Char)),
    (∀ L ∈ ls, InertLine L) → ∀ (fl : Flags) (done : List Char) (tl : List Char),
    ∃ fl2 : Flags, (fl.has_doi = true → fl2.has_doi = true) ∧
      scanEntry cfg bU fl done ('\n' :: bodyR ls tl)
        = scanEntry cfg bU fl2 (done ++ prefR ls) ('\n' :: tl) := by
  intro ls
  induction ls with
  | nil => intro _ fl done tl; exact ⟨fl, fun h => h, by simp [prefR, bodyR]⟩
  | cons L ls ih =>
    intro h fl done tl
    have hL := h L (List.mem_cons_self _ _)
    have hls : ∀ M ∈ ls, InertLine M := fun M hm => h M (List.mem_cons_of_mem _ hm)
    rcases hL with ⟨hcat, hch⟩ | ⟨v, rfl, hv⟩ | ⟨v, rfl, hv⟩ | ⟨v, rfl, hv⟩
    · obtain ⟨fl2, hdoi, heq⟩ := ih hls fl (done ++ ('\n' :: L)) tl
      refine ⟨fl2, hdoi, ?_⟩
      rw [step_neutral cfg bU fl done L ls tl hcat hch, heq]
      simp [prefR, List.append_assoc]
    · obtain ⟨fl2, hdoi, heq⟩ := ih hls { fl with has_doi := true }
        (done ++ ('\n' :: doiLine v)) tl
      refine ⟨fl2, fun _ => hdoi rfl, ?_⟩
      rw [step_doi cfg bU fl done v ls tl hv, heq]
      simp [prefR, List.append_assoc]
    · obtain ⟨fl2, hdoi, heq⟩ := ih hls { fl with bHasYear := true }
        (done ++ ('\n' :: yearLine v)) tl
      refine ⟨fl2, hdoi, ?_⟩
      rw [step_year cfg bU fl done v ls tl hv, heq]
      simp [prefR, List.append_assoc]
    · obtain ⟨fl2, hdoi, heq⟩ := ih hls { fl with bHasISSN := true, issnInd := done.length + 1 }
        (done ++ ('\n' :: issnLine v)) tl
      refine ⟨fl2, hdoi, ?_⟩
      rw [step_issn cfg bU fl done v ls tl hv, heq]
      simp [prefR, List.append_assoc]

theorem fixEntry_inert (cfg : Config) (ty key : List Char) (ls : List (List Char))
    (hty : lbr ∉ ty) (hlen : ty.length ≤ 23) (hkey : benignL key = true)
    (hissn : cfg.turn_issn_into_missing_year = false)
    (h : ∀ L ∈ ls, InertLine L) :
    fixEntry cfg (recordR ty key ls) = some (recordR ty key ls) := by
  rw [fixEntry_recordR cfg ty key ls hty hlen hkey hissn]
  obtain ⟨fl2, _, heq⟩ := scan_inert_lines cfg
    (URL_EXCEPTION_TYPES.contains ty || cfg.turn_every_entry_url_exception) ls h initFlags
    (headerD ty key) (rbr :: ['\n'])
  rw [heq, scan_close]
  rw [recordR_prefR ty key ls]
  simp [List.append_assoc]

theorem prefR_append (xs ys : List (List Char)) : prefR (xs ++ ys) = prefR xs ++ prefR ys := by
  induction xs with
  | nil => simp [prefR]
  | cons L ls ih => simp [prefR, ih]

theorem endsTerm_termLine (z : List Char) : endsTerm (termLine z) = true := by
  rw [endsTerm_iff]
  refine ⟨by simp [termLine], ?_, ?_⟩
  · rw [show (termLine z).length - 2 = z.length by simp [termLine]]
    rw [termLine, gc_append_ge z [rbr, ','] z.length (le_refl _), Nat.sub_self]
    rfl
  · rw [show (termLine z).length - 1 = z.length + 1 by simp [termLine]]
    rw [termLine, gc_append_ge z [rbr, ','] (z.length + 1) (by omega)]
    rw [show z.length + 1 - z.length = 1 by omega]
    rfl

theorem noNl_termLine (z : List Char) (hz : '\n' ∉ z) : '\n' ∉ termLine z := by
  intro hmem
  rcases List.mem_append.mp hmem with h | h
  · exact hz h
  · simp at h
    exact absurd h (by decide)

theorem step_month_plain (cfg : Config) (bU : Bool) (fl : Flags) (done : List Char)
    (a b c : Char) (ls : List (List Char)) (tl : List Char) (hab : benignL [a, b, c] = true) :
    scanEntry cfg bU fl done ('\n' :: bodyR (monthFixedL a b c :: ls) tl)
      = scanEntry cfg bU fl (done ++ ('\n' :: monthFixedL a b c)) ('\n' :: bodyR ls tl) := by
  have hgf : (gc (monthFixedL a b c ++ '\n' :: bodyR ls tl) 8 == lbr
      && gc (monthFixedL a b c ++ '\n' :: bodyR ls tl) 12 == rbr) = false := by
    show (((a == lbr) && (('\n' : Char) == rbr)) = false)
    rw [show (('\n' : Char) == rbr) = false from rfl]
    simp
  show scanFuel cfg bU (('\n' :: bodyR (monthFixedL a b c :: ls) tl).length + 1) fl done
    ('\n' :: bodyR (monthFixedL a b c :: ls) tl) = _
  rw [show bodyR (monthFixedL a b c :: ls) tl = monthFixedL a b c ++ '\n' :: bodyR ls tl from rfl]
  rw [List.length_cons, scanFuel_cons]
  rw [if_pos (show (('\n' : Char) == '\n') = true from rfl)]
  rw [if_pos (show List.isPrefixOf monthPat (monthFixedL a b c ++ '\n' :: bodyR ls tl) = true
    from rfl)]
  rw [if_neg (bool_neg _ hgf)]
  rw [show scanFuel cfg bU ((monthFixedL a b c ++ '\n' :: bodyR ls tl).length + 1) fl
    (done ++ ['\n']) (monthFixedL a b c ++ '\n' :: bodyR ls tl)
    = scanEntry cfg bU fl (done ++ ['\n']) (monthFixedL a b c ++ '\n' :: bodyR ls tl) from rfl]
  rw [scan_chunk cfg bU (monthFixedL a b c) (chunkOK_monthFixedL a b c hab)]
  simp

/- Part 10: entry extraction. -/

theorem isTermAt_iff (s : List Char) (t : Nat) :
    isTermAt s t = true ↔
      gc s t = rbr ∧ gc s (t - 1) = '\n' ∧ (gc s (t + 1) = '\n' ∨ gc s (t + 1) = nul) := by
  simp [isTermAt, Bool.and_eq_true, Bool.or_eq_true, beq_iff_eq, and_assoc]

theorem isTermAt_lt (s : List Char) (t : Nat) (h : isTermAt s t = true) : t < s.length := by
  obtain ⟨h1, _, _⟩ := (isTermAt_iff s t).mp h
  exact lt_length_of_gc s t (by rw [h1]; decide)

theorem atSearch_some_iff (s : List Char) (pos a : Nat) :
    atSearch s pos = some a ↔
      pos ≤ a ∧ gc s a = '@' ∧ ∀ m, pos ≤ m → m < a → gc s m ≠ '@' := by
  rw [atSearch, searchIdx_some_iff]
  constructor
  · rintro ⟨h1, _, h3, h4⟩
    exact ⟨h1, by simpa [beq_iff_eq] using h3,
      fun m hm1 hm2 => by simpa [beq_iff_eq] using h4 m hm1 hm2⟩
  · rintro ⟨h1, h2, h3⟩
    have ha : a < s.length := lt_length_of_gc s a (by rw [h2]; decide)
    exact ⟨h1, by omega, by simpa [beq_iff_eq] using h2,
      fun m hm1 hm2 => by simpa [beq_iff_eq] using h3 m hm1 hm2⟩

theorem atSearch_none_iff (s : List Char) (pos : Nat) :
    atSearch s pos = none ↔ ∀ m, pos ≤ m → gc s m ≠ '@' := by
  rw [atSearch, searchIdx_none_iff]
  constructor
  · intro h m hm
    by_cases hlt : m < pos + (s.length - pos)
    · simpa [beq_iff_eq] using h m hm hlt
    · intro hEq
      have : m < s.length := lt_length_of_gc s m (by rw [hEq]; decide)
      omega
  · intro h m hm _
    simpa [beq_iff_eq] using h m hm

theorem termSearch_some_iff (s : List Char) (pos t : Nat) :
    termSearch s pos = some t ↔
      pos ≤ t ∧ isTermAt s t = true ∧ ∀ u, pos ≤ u → u < t → isTermAt s u = false := by
  rw [termSearch, searchIdx_some_iff]
  constructor
  · rintro ⟨h1, _, h3, h4⟩
    exact ⟨h1, h3, h4⟩
  · rintro ⟨h1, h2, h3⟩
    have := isTermAt_lt s t h2
    exact ⟨h1, by omega, h2, h3⟩

theorem termSearch_none_iff (s : List Char) (pos : Nat) :
    termSearch s pos = none ↔ ∀ u, pos ≤ u → isTermAt s u = false := by
  rw [termSearch, searchIdx_none_iff]
  constructor
  · intro h u hu
    by_cases hlt : u < pos + (s.length - pos)
    · exact h u hu hlt
    · rcases Bool.eq_false_or_eq_true (isTermAt s u) with ht | hf
      · have := isTermAt_lt s u ht
        omega
      · exact hf
  · intro h u hu _
    exact h u hu

theorem extractFuel_succ (s : List Char) (f pos : Nat) :
    extractFuel s (f + 1) pos =
      match atSearch s pos with
      | none => []
      | some a =>
        match termSearch s (a + 1) with
        | none => []
        | some t => (a, t) :: extractFuel s f t := rfl

theorem extractFuel_spec (s : List Char) : ∀ (f pos : Nat), s.length < f + pos →
    (∀ p ∈ extractFuel s f pos, pos ≤ p.1 ∧ gc s p.1 = '@' ∧ isTermAt s p.2 = true ∧ p.1 < p.2
        ∧ ∀ u, p.1 + 1 ≤ u → u < p.2 → isTermAt s u = false)
    ∧ (extractFuel s f pos).Chain' (fun p q => p.2 + 2 ≤ q.1)
    ∧ (∀ q, pos ≤ q → gc s q = '@' →
        (∃ p ∈ extractFuel s f pos, p.1 ≤ q ∧ q ≤ p.2)
        ∨ (∀ t, q + 1 ≤ t → isTermAt s t = false)) := by
  intro f
  induction f with
  | zero =>
    intro pos hb
    refine ⟨by simp [extractFuel], by simp [extractFuel], ?_⟩
    intro q hq hat
    exfalso
    have : q < s.length := lt_length_of_gc s q (by rw [hat]; decide)
    omega
  | succ f ih =>
    intro pos hb
    cases hat : atSearch s pos with
    | none =>
      have hnone := (atSearch_none_iff s pos).mp hat
      simp only [extractFuel_succ, hat]
      refine ⟨by simp, by simp, ?_⟩
      intro q hq hq2
      exact absurd hq2 (hnone q hq)
    | some a =>
      obtain ⟨ha1, ha2, ha3⟩ := (atSearch_some_iff s pos a).mp hat
      cases hts : termSearch s (a + 1) with
      | none =>
        have hnone := (termSearch_none_iff s (a + 1)).mp hts
        simp only [extractFuel_succ, hat, hts]
        refine ⟨by simp, by simp, ?_⟩
        intro q hq hq2
        right
        intro t ht
        by_cases hta : a + 1 ≤ t
        · exact hnone t hta
        · by_cases hqa : q < a
          · exact absurd hq2 (ha3 q hq hqa)
          · omega
      | some t =>
        obtain ⟨ht1, ht2, ht3⟩ := (termSearch_some_iff s (a + 1) t).mp hts
        have htLt : t < s.length := isTermAt_lt s t ht2
        obtain ⟨ihS, ihC, ihP⟩ := ih t (by omega)
        simp only [extractFuel_succ, hat, hts]
        obtain ⟨htr, _, htnext⟩ := (isTermAt_iff s t).mp ht2
        have hnott : gc s t ≠ '@' := by rw [htr]; decide
        have hnott1 : gc s (t + 1) ≠ '@' := by
          rcases htnext with hx | hx <;> rw [hx] <;> decide
        refine ⟨?_, ?_, ?_⟩
        · intro p hp
          rcases List.mem_cons.mp hp with rfl | hp2
          · exact ⟨ha1, ha2, ht2, by omega, ht3⟩
          · obtain ⟨hq1, rest⟩ := ihS p hp2
            exact ⟨by omega, rest⟩
        · rw [List.chain'_cons']
          refine ⟨?_, ihC⟩
          intro q hq
          have hqmem : q ∈ extractFuel s f t := List.mem_of_mem_head? hq
          obtain ⟨hq1, hq2, _⟩ := ihS q hqmem
          have hne1 : q.1 ≠ t := fun hEq => hnott (hEq ▸ hq2)
          have hne2 : q.1 ≠ t + 1 := fun hEq => hnott1 (hEq ▸ hq2)
          omega
        · intro q hq hq2
          by_cases hqa : q < a
          · exact absurd hq2 (ha3 q hq hqa)
          · by_cases hqt : q ≤ t
            · exact Or.inl ⟨(a, t), List.mem_cons_self _ _, by omega, by omega⟩
            · rcases ihP q (by omega) hq2 with ⟨p, hpmem, hple⟩ | hnone
              · exact Or.inl ⟨p, List.mem_cons_of_mem _ hpmem, hple⟩
              · exact Or.inr hnone

/- Part 11: the claims. -/

/-- Claim C10: the field end locator used for annote and abstract removal terminates exactly
when the three character sequence closing brace, comma, newline occurs at or after the
position one past the start of the field; in the total embedding findEndOfField returns
some exactly under this precondition, and its none branch corresponds to the C loop
scanning past the logical end of the entry. -/
theorem C10_findEndOfField_total (s : List Char) (st : Nat) :
    (findEndOfField s st).isSome = true ↔ ∃ j, st + 1 ≤ j ∧ termWindow s j = true := by
  constructor
  · intro h
    cases hf : findEndOfField s st with
    | none => rw [hf] at h; cases h
    | some m =>
      obtain ⟨j, _, hj1, hj2, _⟩ := (findEndOfField_some_iff s st m).mp hf
      exact ⟨j, hj1, hj2⟩
  · rintro ⟨j, hj1, hj2⟩
    cases hf : findEndOfField s st with
    | none =>
      have := (findEndOfField_none_iff s st).mp hf j hj1
      rw [hj2] at this
      cases this
    | some m => rfl

/-- Claim C9: on a NUL free buffer the Entry Extractor yields exactly the records delimited
by a leading at sign and a terminating closing brace preceded by a newline and followed by
a newline or the end of input: every yielded range starts at an at sign and ends at the
first such terminator after its anchor, the ranges are strictly ordered and disjoint so
each record is yielded once and in input order, and every at sign of the buffer either
falls inside a yielded range or has no terminator after it, so that only a trailing
partial record is dropped. -/
theorem C9_extractor (s : List Char) (hnul : nul ∉ s) :
    (∀ p ∈ extractRanges s, gc s p.1 = '@' ∧ isTermAt s p.2 = true ∧ p.1 < p.2
        ∧ ∀ u, p.1 + 1 ≤ u → u < p.2 → isTermAt s u = false)
    ∧ (extractRanges s).Chain' (fun p q => p.2 + 2 ≤ q.1)
    ∧ (∀ q, gc s q = '@' →
        (∃ p ∈ extractRanges s, p.1 ≤ q ∧ q ≤ p.2)
        ∨ (∀ t, q + 1 ≤ t → isTermAt s t = false)) := by
  obtain ⟨hS, hC, hP⟩ := extractFuel_spec s (s.length + 1) 0 (by omega)
  rw [extractRanges]
  exact ⟨fun p hp => (hS p hp).2, hC, fun q hq => hP q (Nat.zero_le q) hq⟩

/-- Witness for claim C9 on a concrete buffer with two entries and a dropped partial. -/
theorem C9_witness :
    nul ∉ exBuf
    ∧ ((∀ p ∈ extractRanges exBuf, gc exBuf p.1 = '@' ∧ isTermAt exBuf p.2 = true ∧ p.1 < p.2
          ∧ ∀ u, p.1 + 1 ≤ u → u < p.2 → isTermAt exBuf u = false)
      ∧ (extractRanges exBuf).Chain' (fun p q => p.2 + 2 ≤ q.1)
      ∧ (∀ q, gc exBuf q = '@' →
          (∃ p ∈ extractRanges exBuf, p.1 ≤ q ∧ q ≤ p.2)
          ∨ (∀ t, q + 1 ≤ t → isTermAt exBuf t = false))) :=
  ⟨by decide, C9_extractor exBuf (by decide)⟩

/-- Claim C1 counterexample: under the unmodified default configuration the url line of an
article record with no doi line is kept, not deleted, because the every entry url
exception override defaults to true, so the claimed output without the url line is not
produced. -/
theorem C1_counterexample :
    fixEntry defaultCfg (recordR artT ['k'] [urlLine ['h','t','t','p',':','/','/','x']])
      = some (recordR artT ['k'] [urlLine ['h','t','t','p',':','/','/','x']])
    ∧ fixEntry defaultCfg (recordR artT ['k'] [urlLine ['h','t','t','p',':','/','/','x']])
      ≠ some (recordR artT ['k'] []) := by
  decide

/-- Claim C1 (amended): with the every entry url exception override disabled and the rest
of the configuration at its defaults, every article record whose body holds a url line
among otherwise inert lines has the url line deleted, so the output record omits it; with
the override at its default of true the url line is kept instead, as the counterexample
shows. -/
theorem C1_amended (key v : List Char) (pre post : List (List Char))
    (hkey : benignL key = true) (hv : benignL v = true)
    (hpre : ∀ L ∈ pre, InertLine L) (hpost : ∀ L ∈ post, InertLine L) :
    fixEntry cfgNoX (recordR artT key (pre ++ urlLine v :: post))
      = some (recordR artT key (pre ++ post)) := by
  rw [fixEntry_recordR cfgNoX artT key _ (by decide) (by decide) hkey rfl]
  rw [show (URL_EXCEPTION_TYPES.contains artT || cfgNoX.turn_every_entry_url_exception) = false
    from rfl]
  rw [show bodyR (pre ++ urlLine v :: post) (rbr :: ['\n'])
    = bodyR pre (bodyR (urlLine v :: post) (rbr :: ['\n'])) from bodyR_append pre _ _]
  obtain ⟨fl2, _, heq⟩ := scan_inert_lines cfgNoX false pre hpre initFlags (headerD artT key)
    (bodyR (urlLine v :: post) (rbr :: ['\n']))
  rw [heq]
  rw [step_url_del cfgNoX false fl2 _ v post (rbr :: ['\n']) hv (by simp)]
  obtain ⟨fl3, _, heq2⟩ := scan_inert_lines cfgNoX false post hpost fl2
    (headerD artT key ++ prefR pre) (rbr :: ['\n'])
  rw [heq2, scan_close]
  rw [recordR_prefR artT key (pre ++ post), prefR_append]
  simp [List.append_assoc]

/-- Witness for the amended claim C1 at a concrete article record. -/
theorem C1_witness :
    benignL ['k'] = true ∧ benignL ['h','x'] = true
    ∧ fixEntry cfgNoX (recordR artT ['k'] [urlLine ['h','x']]) = some (recordR artT ['k'] []) :=
  ⟨by decide, by decide,
    C1_amended ['k'] ['h','x'] [] [] (by decide) (by decide) (by simp) (by simp)⟩

/-- Claim C2 counterexample: a month line whose value wraps the three character abbreviation
in a doubled brace pair is left untouched by the rewriter, not rewritten to a single brace
pair as claimed; the transform instead fires on the single brace layout. -/
theorem C2_counterexample :
    fixEntry defaultCfg (recordR artT ['m','2'] [monthDD 'j' 'a' 'n'])
      ≠ some (recordR artT ['m','2'] [monthBr 'j' 'a' 'n'])
    ∧ fixEntry defaultCfg (recordR artT ['m','2'] [monthDD 'j' 'a' 'n'])
      = some (recordR artT ['m','2'] [monthDD 'j' 'a' 'n']) := by
  decide

/-- Claim C2 (amended): the month transform fires on a line whose value is a three
character abbreviation in a single brace pair, removing the braces for a net two character
deletion, while a line with a doubled brace pair around the abbreviation is not in the
expected layout and is left untouched. -/
theorem C2_amended (ty key : List Char) (a b c : Char) (pre post : List (List Char))
    (hty : lbr ∉ ty) (hlenty : ty.length ≤ 23) (hkey : benignL key = true)
    (habc : benignL [a, b, c] = true)
    (hpre : ∀ L ∈ pre, InertLine L) (hpost : ∀ L ∈ post, InertLine L) :
    fixEntry defaultCfg (recordR ty key (pre ++ monthBr a b c :: post))
      = some (recordR ty key (pre ++ monthFixedL a b c :: post))
    ∧ fixEntry defaultCfg (recordR ty key (pre ++ monthDD a b c :: post))
      = some (recordR ty key (pre ++ monthDD a b c :: post)) := by
  constructor
  · rw [fixEntry_recordR defaultCfg ty key _ hty hlenty hkey rfl]
    rw [show bodyR (pre ++ monthBr a b c :: post) (rbr :: ['\n'])
      = bodyR pre (bodyR (monthBr a b c :: post) (rbr :: ['\n'])) from bodyR_append pre _ _]
    obtain ⟨fl2, _, heq⟩ := scan_inert_lines defaultCfg _ pre hpre initFlags (headerD ty key)
      (bodyR (monthBr a b c :: post) (rbr :: ['\n']))
    rw [heq, step_month_fix defaultCfg _ fl2 _ a b c post (rbr :: ['\n']) habc]
    obtain ⟨fl3, _, heq2⟩ := scan_inert_lines defaultCfg _ post hpost fl2
      (headerD ty key ++ prefR pre ++ ('\n' :: monthFixedL a b c)) (rbr :: ['\n'])
    rw [heq2, scan_close]
    rw [recordR_prefR ty key (pre ++ monthFixedL a b c :: post), prefR_append]
    simp [prefR, List.append_assoc]
  · rw [fixEntry_recordR defaultCfg ty key _ hty hlenty hkey rfl]
    rw [show bodyR (pre ++ monthDD a b c :: post) (rbr :: ['\n'])
      = bodyR pre (bodyR (monthDD a b c :: post) (rbr :: ['\n'])) from bodyR_append pre _ _]
    obtain ⟨fl2, _, heq⟩ := scan_inert_lines defaultCfg _ pre hpre initFlags (headerD ty key)
      (bodyR (monthDD a b c :: post) (rbr :: ['\n']))
    rw [heq, step_month_DD defaultCfg _ fl2 _ a b c post (rbr :: ['\n']) habc]
    obtain ⟨fl3, _, heq2⟩ := scan_inert_lines defaultCfg _ post hpost fl2
      (headerD ty key ++ prefR pre ++ ('\n' :: monthDD a b c)) (rbr :: ['\n'])
    rw [heq2, scan_close]
    rw [recordR_prefR ty key (pre ++ monthDD a b c :: post), prefR_append]
    simp [prefR, List.append_assoc]

/-- Witness for the amended claim C2 at a concrete record with month value jan. -/
theorem C2_witness :
    lbr ∉ artT ∧ artT.length ≤ 23 ∧ benignL ['m'] = true ∧ benignL ['j', 'a', 'n'] = true
    ∧ (fixEntry defaultCfg (recordR artT ['m'] [monthBr 'j' 'a' 'n'])
        = some (recordR artT ['m'] [monthFixedL 'j' 'a' 'n'])
      ∧ fixEntry defaultCfg (recordR artT ['m'] [monthDD 'j' 'a' 'n'])
        = some (recordR artT ['m'] [monthDD 'j' 'a' 'n'])) :=
  ⟨by decide, by decide, by decide, by decide,
    C2_amended artT ['m'] 'j' 'a' 'n' [] [] (by decide) (by decide) (by decide) (by decide)
      (by simp) (by simp)⟩

/-- Claim C3 counterexample: a record whose only field is a title in a single brace pair
contains none of the fixable defects listed by the claim, yet the rewriter still edits it,
because the title transform applies to every title line unconditionally; the output is not
byte for byte equal to the input. -/
theorem C3_counterexample :
    fixEntry defaultCfg (recordR artT ['k','3'] [titleSingle ['A','b','c']])
      ≠ some (recordR artT ['k','3'] [titleSingle ['A','b','c']]) := by
  decide

/-- Claim C3 (amended): for a record containing none of the fixable defects and no title
line at all, that is whose field lines either match no field prefix and contain no escaped
brace pattern, or are well formed doi, year or issn lines, the output of the rewriter
equals the input byte for byte; a title line must be excluded because the title transform
fires on any title line, also a single braced one. -/
theorem C3_amended (ty key : List Char) (ls : List (List Char))
    (hty : lbr ∉ ty) (hlenty : ty.length ≤ 23) (hkey : benignL key = true)
    (h : ∀ L ∈ ls, InertLine L) :
    fixEntry defaultCfg (recordR ty key ls) = some (recordR ty key ls) :=
  fixEntry_inert defaultCfg ty key ls hty hlenty hkey rfl h

/-- Witness for the amended claim C3 at a concrete inert record. -/
theorem C3_witness :
    lbr ∉ artT ∧ artT.length ≤ 23 ∧ benignL ['k','3'] = true
    ∧ fixEntry defaultCfg
        (recordR artT ['k','3'] [plainField ['p','a','g','e','s'] ['7'], yearLine ['2','0']])
      = some (recordR artT ['k','3'] [plainField ['p','a','g','e','s'] ['7'], yearLine ['2','0']]) :=
  ⟨by decide, by decide, by decide,
    C3_amended artT ['k','3'] [plainField ['p','a','g','e','s'] ['7'], yearLine ['2','0']]
      (by decide) (by decide) (by decide) (by
        intro L hL
        simp only [List.mem_cons, List.not_mem_nil, or_false] at hL
        rcases hL with rfl | rfl
        · exact Or.inl ⟨by decide, by decide⟩
        · exact Or.inr (Or.inr (Or.inl ⟨['2','0'], rfl, by decide⟩)))⟩

/-- Claim C4 counterexample: the rewriter is not idempotent on a record with a single
braced title, although such a record has none of the defects listed by the claim: the
first pass mangles the title line and the second pass runs the title transform on a line
whose end is nearer than the expected offsets, which in the C code underflows the memmove
count, so the embedded second pass returns none instead of the first pass output. -/
theorem C4_counterexample :
    (fixEntry defaultCfg (recordR artT ['k','4'] [titleSingle ['A','b']])).bind
        (fixEntry defaultCfg)
      ≠ fixEntry defaultCfg (recordR artT ['k','4'] [titleSingle ['A','b']]) := by
  decide

/-- Claim C4 (amended): the rewriter is idempotent on records without any title line: on a
record whose field lines are inert, already one application changes nothing, hence a
second application returns the same output as the first. -/
theorem C4_amended (ty key : List Char) (ls : List (List Char))
    (hty : lbr ∉ ty) (hlenty : ty.length ≤ 23) (hkey : benignL key = true)
    (h : ∀ L ∈ ls, InertLine L) :
    (fixEntry defaultCfg (recordR ty key ls)).bind (fixEntry defaultCfg)
      = fixEntry defaultCfg (recordR ty key ls) := by
  have hfix := fixEntry_inert defaultCfg ty key ls hty hlenty hkey rfl h
  rw [hfix]
  simpa using hfix

/-- Witness for the amended claim C4 at a concrete inert record. -/
theorem C4_witness :
    lbr ∉ artT ∧ artT.length ≤ 23 ∧ benignL ['k','4'] = true
    ∧ (fixEntry defaultCfg (recordR artT ['k','4'] [doiLine ['1','0']])).bind
        (fixEntry defaultCfg)
      = fixEntry defaultCfg (recordR artT ['k','4'] [doiLine ['1','0']]) :=
  ⟨by decide, by decide, by decide,
    C4_amended artT ['k','4'] [doiLine ['1','0']] (by decide) (by decide) (by decide) (by
      intro L hL
      simp only [List.mem_cons, List.not_mem_nil, or_false] at hL
      subst hL
      exact Or.inr (Or.inl ⟨['1','0'], rfl, by decide⟩))⟩

/-- Claim C5: for a single line title field wrapped in two layers of braces inside a record
of otherwise inert lines, the rewriter removes exactly one enclosing layer, a net two
character deletion, and every byte outside that line is unchanged. -/
theorem C5_title_dedup (ty key v : List Char) (pre post : List (List Char))
    (hty : lbr ∉ ty) (hlenty : ty.length ≤ 23) (hkey : benignL key = true)
    (hv : benignL v = true)
    (hpre : ∀ L ∈ pre, InertLine L) (hpost : ∀ L ∈ post, InertLine L) :
    fixEntry defaultCfg (recordR ty key (pre ++ titleDD v :: post))
      = some (recordR ty key (pre ++ titleSingle v :: post)) := by
  rw [fixEntry_recordR defaultCfg ty key _ hty hlenty hkey rfl]
  rw [show bodyR (pre ++ titleDD v :: post) (rbr :: ['\n'])
    = bodyR pre (bodyR (titleDD v :: post) (rbr :: ['\n'])) from bodyR_append pre _ _]
  obtain ⟨fl2, _, heq⟩ := scan_inert_lines defaultCfg _ pre hpre initFlags (headerD ty key)
    (bodyR (titleDD v :: post) (rbr :: ['\n']))
  rw [heq, step_title_fix defaultCfg _ fl2 _ v post (rbr :: ['\n']) hv]
  obtain ⟨fl3, _, heq2⟩ := scan_inert_lines defaultCfg _ post hpost fl2
    (headerD ty key ++ prefR pre ++ ('\n' :: titleSingle v)) (rbr :: ['\n'])
  rw [heq2, scan_close]
  rw [recordR_prefR ty key (pre ++ titleSingle v :: post), prefR_append]
  simp [prefR, List.append_assoc]

/-- Witness for claim C5 at a concrete doubly braced title. -/
theorem C5_witness :
    lbr ∉ artT ∧ artT.length ≤ 23 ∧ benignL ['k','5'] = true ∧ benignL ['A','b',' ','c'] = true
    ∧ fixEntry defaultCfg (recordR artT ['k','5'] [titleDD ['A','b',' ','c']])
      = some (recordR artT ['k','5'] [titleSingle ['A','b',' ','c']]) :=
  ⟨by decide, by decide, by decide, by decide,
    C5_title_dedup artT ['k','5'] ['A','b',' ','c'] [] [] (by decide) (by decide) (by decide)
      (by decide) (by simp) (by simp)⟩

/-- Claim C6 counterexample: a title line without the doubled brace pattern is not left
unchanged: the rewriter edits every title line, so the claimed silent skip fails for the
title transform. -/
theorem C6_counterexample :
    fixEntry defaultCfg (recordR artT ['k','6'] [titleSingle ['X','y','z']])
      ≠ some (recordR artT ['k','6'] [titleSingle ['X','y','z']]) := by
  decide

/-- Claim C6 (amended): a month line whose layout does not match the expected single brace
three character form is silently skipped and left unchanged, both for a braced four
character value and for a bare three character value; the title transform however has no
layout check and edits any title line, as the counterexample shows. -/
theorem C6_amended (ty key : List Char) (a b c d : Char) (pre post : List (List Char))
    (hty : lbr ∉ ty) (hlenty : ty.length ≤ 23) (hkey : benignL key = true)
    (habc : benignL [a, b, c] = true) (habcd : benignL [a, b, c, d] = true)
    (hpre : ∀ L ∈ pre, InertLine L) (hpost : ∀ L ∈ post, InertLine L) :
    fixEntry defaultCfg (recordR ty key (pre ++ monthBr4 a b c d :: post))
      = some (recordR ty key (pre ++ monthBr4 a b c d :: post))
    ∧ fixEntry defaultCfg (recordR ty key (pre ++ monthFixedL a b c :: post))
      = some (recordR ty key (pre ++ monthFixedL a b c :: post)) := by
  constructor
  · rw [fixEntry_recordR defaultCfg ty key _ hty hlenty hkey rfl]
    rw [show bodyR (pre ++ monthBr4 a b c d :: post) (rbr :: ['\n'])
      = bodyR pre (bodyR (monthBr4 a b c d :: post) (rbr :: ['\n'])) from bodyR_append pre _ _]
    obtain ⟨fl2, _, heq⟩ := scan_inert_lines defaultCfg _ pre hpre initFlags (headerD ty key)
      (bodyR (monthBr4 a b c d :: post) (rbr :: ['\n']))
    rw [heq, step_month_Br4 defaultCfg _ fl2 _ a b c d post (rbr :: ['\n']) habcd]
    obtain ⟨fl3, _, heq2⟩ := scan_inert_lines defaultCfg _ post hpost fl2
      (headerD ty key ++ prefR pre ++ ('\n' :: monthBr4 a b c d)) (rbr :: ['\n'])
    rw [heq2, scan_close]
    rw [recordR_prefR ty key (pre ++ monthBr4 a b c d :: post), prefR_append]
    simp [prefR, List.append_assoc]
  · rw [fixEntry_recordR defaultCfg ty key _ hty hlenty hkey rfl]
    rw [show bodyR (pre ++ monthFixedL a b c :: post) (rbr :: ['\n'])
      = bodyR pre (bodyR (monthFixedL a b c :: post) (rbr :: ['\n'])) from bodyR_append pre _ _]
    obtain ⟨fl2, _, heq⟩ := scan_inert_lines defaultCfg _ pre hpre initFlags (headerD ty key)
      (bodyR (monthFixedL a b c :: post) (rbr :: ['\n']))
    rw [heq, step_month_plain defaultCfg _ fl2 _ a b c post (rbr :: ['\n']) habc]
    obtain ⟨fl3, _, heq2⟩ := scan_inert_lines defaultCfg _ post hpost fl2
      (headerD ty key ++ prefR pre ++ ('\n' :: monthFixedL a b c)) (rbr :: ['\n'])
    rw [heq2, scan_close]
    rw [recordR_prefR ty key (pre ++ monthFixedL a b c :: post), prefR_append]
    simp [prefR, List.append_assoc]

/-- Witness for the amended claim C6 at concrete month lines with unexpected layouts. -/
theorem C6_witness :
    lbr ∉ artT ∧ artT.length ≤ 23 ∧ benignL ['m','6'] = true ∧ benignL ['d', 'e', 'c'] = true
    ∧ benignL ['d', 'e', 'c', 't'] = true
    ∧ (fixEntry defaultCfg (recordR artT ['m','6'] ([] ++ monthBr4 'd' 'e' 'c' 't' :: []))
        = some (recordR artT ['m','6'] ([] ++ monthBr4 'd' 'e' 'c' 't' :: []))
      ∧ fixEntry defaultCfg (recordR artT ['m','6'] ([] ++ monthFixedL 'd' 'e' 'c' :: []))
        = some (recordR artT ['m','6'] ([] ++ monthFixedL 'd' 'e' 'c' :: []))) :=
  ⟨by decide, by decide, by decide, by decide, by decide,
    C6_amended artT ['m','6'] 'd' 'e' 'c' 't' [] [] (by decide) (by decide) (by decide)
      (by decide) (by decide) (by simp) (by simp)⟩

/-- Claim C7: for a record of entry type misc, which is in the url exception set, holding a
doi line and a later url line, with the keep url only if no doi policy at its default of
enabled and the every entry exception override disabled, the url line is still deleted,
because the doi flag is recorded before the url line is reached. -/
theorem C7_misc_doi_url (key dv uv : List Char) (pre mid post : List (List Char))
    (hkey : benignL key = true) (hdv : benignL dv = true) (huv : benignL uv = true)
    (hpre : ∀ L ∈ pre, InertLine L) (hmid : ∀ L ∈ mid, InertLine L)
    (hpost : ∀ L ∈ post, InertLine L) :
    fixEntry cfgNoX (recordR miscT key (pre ++ doiLine dv :: (mid ++ urlLine uv :: post)))
      = some (recordR miscT key (pre ++ doiLine dv :: (mid ++ post))) := by
  rw [fixEntry_recordR cfgNoX miscT key _ (by decide) (by decide) hkey rfl]
  rw [show (URL_EXCEPTION_TYPES.contains miscT || cfgNoX.turn_every_entry_url_exception) = true
    from rfl]
  rw [show bodyR (pre ++ doiLine dv :: (mid ++ urlLine uv :: post)) (rbr :: ['\n'])
    = bodyR pre (bodyR (doiLine dv :: (mid ++ urlLine uv :: post)) (rbr :: ['\n']))
    from bodyR_append pre _ _]
  obtain ⟨fl2, _, heq⟩ := scan_inert_lines cfgNoX true pre hpre initFlags (headerD miscT key)
    (bodyR (doiLine dv :: (mid ++ urlLine uv :: post)) (rbr :: ['\n']))
  rw [heq]
  rw [step_doi cfgNoX true fl2 _ dv (mid ++ urlLine uv :: post) (rbr :: ['\n']) hdv]
  rw [show bodyR (mid ++ urlLine uv :: post) (rbr :: ['\n'])
    = bodyR mid (bodyR (urlLine uv :: post) (rbr :: ['\n'])) from bodyR_append mid _ _]
  obtain ⟨fl3, hdoi3, heq2⟩ := scan_inert_lines cfgNoX true mid hmid
    { fl2 with has_doi := true }
    (headerD miscT key ++ prefR pre ++ ('\n' :: doiLine dv))
    (bodyR (urlLine uv :: post) (rbr :: ['\n']))
  rw [heq2]
  have hd3 : fl3.has_doi = true := hdoi3 rfl
  rw [step_url_del cfgNoX true fl3 _ uv post (rbr :: ['\n']) huv (by rw [hd3]; decide)]
  obtain ⟨fl4, _, heq3⟩ := scan_inert_lines cfgNoX true post hpost fl3
    (headerD miscT key ++ prefR pre ++ ('\n' :: doiLine dv) ++ prefR mid) (rbr :: ['\n'])
  rw [heq3, scan_close]
  rw [recordR_prefR miscT key (pre ++ doiLine dv :: (mid ++ post)), prefR_append]
  simp [prefR, prefR_append, List.append_assoc]

/-- Witness for claim C7 at a concrete misc record with doi and url. -/
theorem C7_witness :
    benignL ['k','7'] = true ∧ benignL ['1','0','.','1'] = true ∧ benignL ['h','t','t','p'] = true
    ∧ fixEntry cfgNoX
        (recordR miscT ['k','7'] ([] ++ doiLine ['1','0','.','1'] :: ([] ++ urlLine ['h','t','t','p'] :: [])))
      = some (recordR miscT ['k','7'] ([] ++ doiLine ['1','0','.','1'] :: ([] ++ []))) :=
  ⟨by decide, by decide, by decide,
    C7_misc_doi_url ['k','7'] ['1','0','.','1'] ['h','t','t','p'] [] [] [] (by decide)
      (by decide) (by decide) (by simp) (by simp) (by simp)⟩

/-- Claim C8: an annote field spanning several lines, whose content lines may contain
embedded closing braces as long as they do not end in the closing brace comma pair, is
deleted as one unit from its first line through the first line that does end in the
closing brace comma pair, never truncating the deletion at an embedded closing brace. -/
theorem C8_annote_block (ty key w z : List Char) (mids : List (List Char))
    (pre post : List (List Char))
    (hty : lbr ∉ ty) (hlenty : ty.length ≤ 23) (hkey : benignL key = true)
    (hw : '\n' ∉ w) (hA0t : endsTerm (annoteFirst w) = false)
    (hmids : ∀ M ∈ mids, '\n' ∉ M ∧ endsTerm M = false)
    (hz : '\n' ∉ z)
    (hpre : ∀ L ∈ pre, InertLine L) (hpost : ∀ L ∈ post, InertLine L) :
    fixEntry defaultCfg
        (recordR ty key (pre ++ (annoteFirst w :: (mids ++ termLine z :: post))))
      = some (recordR ty key (pre ++ post)) := by
  rw [fixEntry_recordR defaultCfg ty key _ hty hlenty hkey rfl]
  rw [show bodyR (pre ++ (annoteFirst w :: (mids ++ termLine z :: post))) (rbr :: ['\n'])
    = bodyR pre (bodyR (annoteFirst w :: (mids ++ termLine z :: post)) (rbr :: ['\n']))
    from bodyR_append pre _ _]
  obtain ⟨fl2, _, heq⟩ := scan_inert_lines defaultCfg _ pre hpre initFlags (headerD ty key)
    (bodyR (annoteFirst w :: (mids ++ termLine z :: post)) (rbr :: ['\n']))
  rw [heq]
  rw [step_annote_del defaultCfg _ fl2 _ w mids (termLine z) post (rbr :: ['\n']) rfl hw hA0t
    hmids (noNl_termLine z hz) (endsTerm_termLine z)]
  obtain ⟨fl3, _, heq2⟩ := scan_inert_lines defaultCfg _ post hpost fl2
    (headerD ty key ++ prefR pre) (rbr :: ['\n'])
  rw [heq2, scan_close]
  rw [recordR_prefR ty key (pre ++ post), prefR_append]
  simp [List.append_assoc]

/-- Witness for claim C8 at a concrete annote field with an embedded closing brace in a
content line. -/
theorem C8_witness :
    lbr ∉ artT ∧ artT.length ≤ 23 ∧ benignL ['k','8'] = true
    ∧ '\n' ∉ ['f','i','r','s','t']
    ∧ endsTerm (annoteFirst ['f','i','r','s','t']) = false
    ∧ (∀ M ∈ [['h','a','s',' ',rbr,' ','i','n']], '\n' ∉ M ∧ endsTerm M = false)
    ∧ '\n' ∉ ['l','a','s','t']
    ∧ fixEntry defaultCfg
        (recordR artT ['k','8']
          ([yearLine ['2','0']] ++ (annoteFirst ['f','i','r','s','t']
            :: ([['h','a','s',' ',rbr,' ','i','n']] ++ termLine ['l','a','s','t'] :: []))))
      = some (recordR artT ['k','8'] ([yearLine ['2','0']] ++ [])) :=
  ⟨by decide, by decide, by decide, by decide, by decide, by decide, by decide,
    C8_annote_block artT ['k','8'] ['f','i','r','s','t'] ['l','a','s','t']
      [['h','a','s',' ',rbr,' ','i','n']] [yearLine ['2','0']] [] (by decide) (by decide)
      (by decide) (by decide) (by decide) (by decide) (by decide)
      (by
        intro L hL
        simp only [List.mem_cons, List.not_mem_nil, or_false] at hL
        subst hL
        exact Or.inr (Or.inr (Or.inl ⟨['2','0'], rfl, by decide⟩)))
      (by simp)⟩
